import Mathlib

/-!
Verification of the document-segmentation and candidate-ranking core of the
NoCode-RAG-Assistant repository.  Python strings are modelled as `List Char`,
Python floats as exact rationals, and each regex substitution used by the code
is modelled by a dedicated scanner with the semantics of that fixed pattern.

Source files embedded here:
  backend/app/ingest/chunker.py   (DocumentChunker, chunk_document)
  backend/app/ingest/retriever.py (QueryProcessor, ContextRetriever)
-/

namespace NoRag

set_option maxRecDepth 100000

abbrev PyStr := List Char

/-- one ASCII string literal to `List Char` -/
def str (s : String) : PyStr := s.toList

/-- Python regex class `\s` (ASCII part), also used for `str.strip`/`str.split`. -/
def pyWs (c : Char) : Bool :=
  c = ' ' || c = '\t' || c = '\n' || c = '\r' || c = '\x0b' || c = '\x0c'

/-- Python regex class `[ \t]`. -/
def spaceTab (c : Char) : Bool := c = ' ' || c = '\t'

/-- Python regex class `\w` (ASCII part): letters, digits, underscore. -/
def pyWordChar (c : Char) : Bool := c.isAlphanum || c = '_'

/-- ASCII uppercase, the regex class `[A-Z]`. -/
def isUpperA (c : Char) : Bool := 'A' ≤ c && c ≤ 'Z'

/-- the regex class `[.!?]` of sentence-ending punctuation. -/
def sentPunct (c : Char) : Bool := c = '.' || c = '!' || c = '?'

/-- the regex class `[.!?;,:]` used by `_preprocess_text`. -/
def punctCls (c : Char) : Bool :=
  c = '.' || c = '!' || c = '?' || c = ';' || c = ',' || c = ':'

/-- Python `str.lower()` (ASCII). -/
def lowerStr (s : PyStr) : PyStr := s.map Char.toLower

/-- Python `str.lstrip()`. -/
def lstrip (s : PyStr) : PyStr := s.dropWhile pyWs

/-- Python `str.rstrip()`. -/
def rstrip : PyStr → PyStr
  | [] => []
  | c :: t =>
    let r := rstrip t
    if r.isEmpty && pyWs c then [] else c :: r

/-- Python `str.strip()`. -/
def strip (s : PyStr) : PyStr := rstrip (lstrip s)

theorem length_dropWhile_le (p : Char → Bool) (l : List Char) :
    (l.dropWhile p).length ≤ l.length := by
  induction l with
  | nil => simp [List.dropWhile]
  | cons c t ih =>
    simp only [List.dropWhile]
    cases p c <;> simp <;> omega

theorem length_rstrip_le (s : PyStr) : (rstrip s).length ≤ s.length := by
  induction s with
  | nil => simp [rstrip]
  | cons c t ih =>
    simp only [rstrip]
    split <;> simp <;> omega

theorem length_strip_le (s : PyStr) : (strip s).length ≤ s.length :=
  le_trans (length_rstrip_le _) (length_dropWhile_le _ _)

/-- Python `str.split()` with no argument: split on whitespace runs, no empty
pieces.  `acc` holds the current word reversed. -/
def pySplitWsGo : PyStr → PyStr → List PyStr
  | [], acc => if acc.isEmpty then [] else [acc.reverse]
  | c :: t, acc =>
    if pyWs c then
      if acc.isEmpty then pySplitWsGo t [] else acc.reverse :: pySplitWsGo t []
    else pySplitWsGo t (c :: acc)

def pySplitWs (s : PyStr) : List PyStr := pySplitWsGo s []

/-- Python `" ".join(words)` and friends. -/
def joinWith (sep : PyStr) (xs : List PyStr) : PyStr := List.intercalate sep xs

/-- Bool test for `p` occurring at the start of `s`. -/
def startsWith : PyStr → PyStr → Bool
  | [], _ => true
  | _ :: _, [] => false
  | c :: p, d :: s => c = d && startsWith p s

/-- Python `needle in haystack` substring test. -/
def containsSub (p s : PyStr) : Bool := s.tails.any (fun t => startsWith p t)

/-- Python `s[-n:]` for `n > 0`: the trailing `n` characters. -/
def takeLast (n : Nat) (s : PyStr) : PyStr := s.drop (s.length - n)

theorem length_takeLast_le (n : Nat) (s : PyStr) : (takeLast n s).length ≤ n := by
  simp [takeLast]; omega

/-! ### `_preprocess_text`: the seven regex substitutions, in source order.
Each fixed pattern is modelled by a structurally recursive scanner. -/

/-- `re.sub(r'[ \t]+', ' ', text)`: each maximal space/tab run becomes one
space; `inRun` records whether the previous character was in such a run. -/
def subSpaceTabGo (inRun : Bool) : PyStr → PyStr
  | [] => []
  | c :: t =>
    if spaceTab c then
      if inRun then subSpaceTabGo true t else ' ' :: subSpaceTabGo true t
    else c :: subSpaceTabGo false t

def subSpaceTab (s : PyStr) : PyStr := subSpaceTabGo false s

/-- `re.sub(r'\n[ \t]+', '\n', text)`: spaces/tabs right after a newline are
dropped; `afterNl` records that we are in the dropped region. -/
def subNlSpaceGo (afterNl : Bool) : PyStr → PyStr
  | [] => []
  | c :: t =>
    if c = '\n' then '\n' :: subNlSpaceGo true t
    else if afterNl && spaceTab c then subNlSpaceGo true t
    else c :: subNlSpaceGo false t

def subNlSpace (s : PyStr) : PyStr := subNlSpaceGo false s

/-- `re.sub(r'[ \t]+\n', '\n', text)`: spaces/tabs right before a newline are
dropped; `pending` buffers the current space/tab run, reversed. -/
def subSpaceNlGo (pending : PyStr) : PyStr → PyStr
  | [] => pending.reverse
  | c :: t =>
    if spaceTab c then subSpaceNlGo (c :: pending) t
    else if c = '\n' then '\n' :: subSpaceNlGo [] t
    else pending.reverse ++ c :: subSpaceNlGo [] t

def subSpaceNl (s : PyStr) : PyStr := subSpaceNlGo [] s

/-- `re.sub(r'\n{3,}', '\n\n', text)`: newline runs of length at least 3 become
two; `k` is the length of the current newline streak already processed. -/
def subNl3Go (k : Nat) : PyStr → PyStr
  | [] => []
  | c :: t =>
    if c = '\n' then
      if k < 2 then '\n' :: subNl3Go (k + 1) t else subNl3Go k t
    else c :: subNl3Go 0 t

def subNl3 (s : PyStr) : PyStr := subNl3Go 0 s

/-- `re.sub(r'\s+([.!?;,:])', r'\1', text)`: a whitespace run immediately
followed by one of the punctuation characters is deleted; `pending` buffers the
current whitespace run, reversed. -/
def subWsPunctGo (pending : PyStr) : PyStr → PyStr
  | [] => pending.reverse
  | c :: t =>
    if pyWs c then subWsPunctGo (c :: pending) t
    else if punctCls c then c :: subWsPunctGo [] t
    else pending.reverse ++ c :: subWsPunctGo [] t

def subWsPunct (s : PyStr) : PyStr := subWsPunctGo [] s

/-- scanner mode for `([.!?])\s+`: before anything special, right after a
sentence-punctuation character, or skipping the whitespace run of a match. -/
inductive PwMode | norm | sawP | skipW
deriving Repr, DecidableEq

/-- `re.sub(r'([.!?])\s+', r'\1 ', text)`: a whitespace run right after
sentence punctuation becomes a single space. -/
def subPunctWsGo (m : PwMode) : PyStr → PyStr
  | [] => []
  | c :: t =>
    match m with
    | .norm =>
      if sentPunct c then c :: subPunctWsGo .sawP t else c :: subPunctWsGo .norm t
    | .sawP =>
      if pyWs c then ' ' :: subPunctWsGo .skipW t
      else if sentPunct c then c :: subPunctWsGo .sawP t
      else c :: subPunctWsGo .norm t
    | .skipW =>
      if pyWs c then subPunctWsGo .skipW t
      else if sentPunct c then c :: subPunctWsGo .sawP t
      else c :: subPunctWsGo .norm t

def subPunctWs (s : PyStr) : PyStr := subPunctWsGo .norm s

/-- `re.sub(r'\f', '\n\n', text)`: each form feed becomes a paragraph break. -/
def subFormFeed : PyStr → PyStr
  | [] => []
  | c :: t => (if c = '\x0c' then ['\n', '\n'] else [c]) ++ subFormFeed t

/-- `DocumentChunker._preprocess_text` (chunker.py lines 77-98). -/
def preprocessText (text : PyStr) : PyStr :=
  let t1 := subSpaceTab text
  let t2 := subNlSpace t1
  let t3 := subSpaceNl t2
  let t4 := subNl3 t3
  let t5 := subWsPunct t4
  let t6 := subPunctWs t5
  let t7 := subFormFeed t6
  strip t7

/-! ### the two splitting regexes, `re.split` semantics (separators removed,
empty pieces kept) -/

/-- `re.split(r'\n\s*\n', text)`: a separator is a newline, a greedy whitespace
run, and the last newline inside that run.  `acc` is the current piece
reversed; a nonempty `pending` is a whitespace run (reversed) that began with a
newline and may yet become a separator. -/
def paragraphSplitGo (acc pending : PyStr) : PyStr → List PyStr
  | [] =>
    if 2 ≤ (pending.filter (fun d => d = '\n')).length then
      [acc.reverse, (pending.takeWhile (fun d => d ≠ '\n')).reverse]
    else [(pending ++ acc).reverse]
  | c :: t =>
    if pending.isEmpty then
      if c = '\n' then paragraphSplitGo acc [c] t
      else paragraphSplitGo (c :: acc) [] t
    else
      if pyWs c then paragraphSplitGo acc (c :: pending) t
      else
        if 2 ≤ (pending.filter (fun d => d = '\n')).length then
          acc.reverse :: paragraphSplitGo (c :: pending.takeWhile (fun d => d ≠ '\n')) [] t
        else paragraphSplitGo (c :: (pending ++ acc)) [] t

def paragraphSplit (s : PyStr) : List PyStr := paragraphSplitGo [] [] s

/-- `re.split(r'[.!?]+\s+', text)`: a separator is a maximal sentence-punctuation
run followed by a nonempty whitespace run.  `acc` is the current piece
reversed, a nonempty `pendingP` is a punctuation run (reversed) that may yet
start a separator, and `skip` means we are consuming the whitespace run of a
confirmed separator. -/
def sentenceSplitGo (acc pendingP : PyStr) (skip : Bool) : PyStr → List PyStr
  | [] => [(pendingP ++ acc).reverse]
  | c :: t =>
    if skip then
      if pyWs c then sentenceSplitGo [] [] true t
      else if sentPunct c then sentenceSplitGo [] [c] false t
      else sentenceSplitGo [c] [] false t
    else if pendingP.isEmpty then
      if sentPunct c then sentenceSplitGo acc [c] false t
      else sentenceSplitGo (c :: acc) [] false t
    else
      if sentPunct c then sentenceSplitGo acc (c :: pendingP) false t
      else if pyWs c then acc.reverse :: sentenceSplitGo [] [] true t
      else sentenceSplitGo (c :: (pendingP ++ acc)) [] false t

def sentenceSplit (s : PyStr) : List PyStr := sentenceSplitGo [] [] false s

/-! ### section-header pattern `^[A-Z][A-Z\s]{2,}:?\s*$|^\d+\.\s+[A-Z]|^#+\s+` -/

/-- tail of the first alternative: optional colon, then whitespace up to the end -/
def colonWsEnd (r : PyStr) : Bool :=
  r.all pyWs || (match r with
                 | ':' :: r2 => r2.all pyWs
                 | _ => false)

/-- alternative `^[A-Z][A-Z\s]{2,}:?\s*$` (match-success semantics) -/
def headerPat1 : PyStr → Bool
  | [] => false
  | c :: t =>
    isUpperA c && (List.range (t.length + 1)).any (fun k =>
      decide (2 ≤ k) && (t.take k).all (fun d => isUpperA d || pyWs d) &&
        colonWsEnd (t.drop k))

/-- alternative `^\d+\.\s+[A-Z]` -/
def headerPat2 (s : PyStr) : Bool :=
  let d := s.takeWhile Char.isDigit
  let r := s.dropWhile Char.isDigit
  !d.isEmpty &&
    (match r with
     | '.' :: r2 =>
       !(r2.takeWhile pyWs).isEmpty && isUpperA ((r2.dropWhile pyWs).headD 'a')
     | _ => false)

/-- alternative `^#+\s+` -/
def headerPat3 (s : PyStr) : Bool :=
  !(s.takeWhile (fun c => c = '#')).isEmpty &&
    !((s.dropWhile (fun c => c = '#')).takeWhile pyWs).isEmpty

/-- `self.section_headers.match(first_line)` viewed as a Bool -/
def sectionHeaderMatch (s : PyStr) : Bool := headerPat1 s || headerPat2 s || headerPat3 s

/-! ### the chunker itself (chunker.py) -/

/-- the three `DocumentChunker.__init__` parameters after resolution -/
structure ChunkerConfig where
  chunk_size : Nat
  chunk_overlap : Nat
  min_chunk_length : Nat
deriving Repr, DecidableEq

/-- one chunk dictionary: the `"text"` entry plus the flattened `ChunkMetadata`
dataclass; `has_overlap` is `none` until `_add_overlap_and_validate` writes it. -/
structure Chunk where
  text : PyStr
  chunk_index : Nat
  start_char : Nat
  end_char : Nat
  chunk_type : PyStr
  word_count : Nat
  sentence_count : Nat
  has_title : Bool
  section_header : Option PyStr
  has_overlap : Option Bool
deriving Repr, DecidableEq

/-- `DocumentChunker._create_chunk_data` (chunker.py lines 245-272). -/
def createChunkData (text : PyStr) (index start_char : Nat) (chunk_type : PyStr) : Chunk :=
  let word_count := (pySplitWs text).length
  let sentence_count := (sentenceSplit text).length
  let firstLine := text.takeWhile (fun c => c ≠ '\n')
  let has_title := sectionHeaderMatch firstLine
  { text := strip text
    chunk_index := index
    start_char := start_char
    end_char := start_char + text.length
    chunk_type := chunk_type
    word_count := word_count
    sentence_count := sentence_count
    has_title := has_title
    section_header := if has_title then some (strip firstLine) else none
    has_overlap := none }

/-- loop state shared by the three greedy packing loops -/
structure PackSt where
  chunks : List Chunk
  current : PyStr
  idx : Nat
  off : Nat

/-- word-packing state of `_split_overflow_text` -/
structure OvSt where
  chunks : List Chunk
  words : List PyStr
  curLen : Nat
  idx : Nat
  off : Nat

/-- loop of `DocumentChunker._split_overflow_text` (chunker.py lines 214-241). -/
def splitOverflowGo (cfg : ChunkerConfig) : List PyStr → OvSt → List Chunk
  | [], st =>
    if !st.words.isEmpty then
      st.chunks ++ [createChunkData (joinWith [' '] st.words) st.idx st.off (str "overflow")]
    else st.chunks
  | w :: ws, st =>
    let wl := w.length + 1
    if st.curLen + wl ≤ cfg.chunk_size then
      splitOverflowGo cfg ws { st with words := st.words ++ [w], curLen := st.curLen + wl }
    else
      let st2 :=
        if !st.words.isEmpty then
          let ct := joinWith [' '] st.words
          { chunks := st.chunks ++ [createChunkData ct st.idx st.off (str "overflow")]
            words := [w], curLen := wl, idx := st.idx + 1, off := st.off + ct.length }
        else { st with words := [w], curLen := wl }
      splitOverflowGo cfg ws st2

/-- `DocumentChunker._split_overflow_text` (chunker.py lines 202-243). -/
def splitOverflowText (cfg : ChunkerConfig) (text : PyStr) (start_index start_char : Nat) :
    List Chunk :=
  splitOverflowGo cfg (pySplitWs text) ⟨[], [], 0, start_index, start_char⟩

/-- loop of `DocumentChunker._split_by_sentences` over `enumerate(sentences)`
(chunker.py lines 161-191); `n` is `len(sentences)`. -/
def splitSentGo (cfg : ChunkerConfig) (n : Nat) : List (Nat × PyStr) → PackSt → List Chunk
  | [], st =>
    if !st.current.isEmpty then
      st.chunks ++ [createChunkData st.current st.idx st.off (str "sentence_group")]
    else st.chunks
  | (i, sent) :: rest, st =>
    let s1 := strip sent
    if s1.isEmpty then splitSentGo cfg n rest st
    else
      let s := if i < n - 1 then s1 ++ str ". " else s1
      if st.current.length + s.length ≤ cfg.chunk_size then
        splitSentGo cfg n rest { st with current := st.current ++ s }
      else
        let fl :=
          if !st.current.isEmpty then
            ({ chunks := st.chunks ++
                 [createChunkData st.current st.idx st.off (str "sentence_group")]
               current := st.current, idx := st.idx + 1,
               off := st.off + st.current.length } : PackSt)
          else st
        if cfg.chunk_size < s.length then
          let oc := splitOverflowText cfg s fl.idx fl.off
          splitSentGo cfg n rest
            { chunks := fl.chunks ++ oc, current := [],
              idx := fl.idx + oc.length, off := fl.off + s.length }
        else
          splitSentGo cfg n rest { chunks := fl.chunks, current := s, idx := fl.idx, off := fl.off }

/-- `DocumentChunker._split_by_sentences` (chunker.py lines 151-200). -/
def splitBySentences (cfg : ChunkerConfig) (text : PyStr) (start_index start_char : Nat) :
    List Chunk :=
  let sentences := sentenceSplit text
  splitSentGo cfg sentences.length sentences.enum ⟨[], [], start_index, start_char⟩

/-- loop of `DocumentChunker._chunk_generic_text` over paragraphs
(chunker.py lines 111-148). -/
def chunkGenericGo (cfg : ChunkerConfig) : List PyStr → PackSt → List Chunk
  | [], st =>
    if !st.current.isEmpty then
      st.chunks ++ [createChunkData st.current st.idx st.off (str "paragraph")]
    else st.chunks
  | p :: rest, st =>
    let para := strip p
    if para.isEmpty || para.length < cfg.min_chunk_length then chunkGenericGo cfg rest st
    else if st.current.length + para.length + 2 ≤ cfg.chunk_size then
      let cur2 := if !st.current.isEmpty then st.current ++ str "\n\n" ++ para else para
      chunkGenericGo cfg rest { st with current := cur2 }
    else
      let fl :=
        if !st.current.isEmpty then
          ({ chunks := st.chunks ++
               [createChunkData st.current st.idx st.off (str "paragraph")]
             current := st.current, idx := st.idx + 1,
             off := st.off + st.current.length } : PackSt)
        else st
      if cfg.chunk_size < para.length then
        let sc := splitBySentences cfg para fl.idx fl.off
        chunkGenericGo cfg rest
          { chunks := fl.chunks ++ sc, current := [],
            idx := fl.idx + sc.length, off := fl.off + para.length }
      else
        chunkGenericGo cfg rest { chunks := fl.chunks, current := para, idx := fl.idx, off := fl.off }

/-- `DocumentChunker._chunk_generic_text` (chunker.py lines 100-149). -/
def chunkGenericText (cfg : ChunkerConfig) (text : PyStr) : List Chunk :=
  chunkGenericGo cfg (paragraphSplit text) ⟨[], [], 0, 0⟩

/-- `DocumentChunker._chunk_pdf_style` (chunker.py lines 280-284): delegates. -/
def chunkPdfStyle (cfg : ChunkerConfig) (text : PyStr) : List Chunk :=
  chunkGenericText cfg text

/-- `DocumentChunker._chunk_structured_document` (chunker.py lines 274-278): delegates. -/
def chunkStructuredDocument (cfg : ChunkerConfig) (text : PyStr) : List Chunk :=
  chunkGenericText cfg text

/-- `DocumentChunker._find_good_overlap` (chunker.py lines 320-335). -/
def findGoodOverlap (text : PyStr) : PyStr :=
  if text.length < 20 then []
  else
    let sentences := sentenceSplit text
    if 1 < sentences.length then strip (sentences.getLastD [])
    else
      let words := pySplitWs text
      if 5 < words.length then joinWith [' '] (words.drop (words.length - 5))
      else text

/-- `DocumentChunker._filter_valid_chunks` (chunker.py lines 337-357). -/
def filterValidChunks (cfg : ChunkerConfig) (chunks : List Chunk) : List Chunk :=
  chunks.filter fun chunk =>
    let t := strip chunk.text
    !(decide (t.length < cfg.min_chunk_length)) && !(decide ((t.filter pyWordChar).length < 5))

/-- body of the stitching loop (chunker.py lines 295-316) for one chunk, given
the predecessor (`none` exactly when `i = 0`). -/
def stitchOne (cfg : ChunkerConfig) (prev : Option Chunk) (chunk : Chunk) : Chunk :=
  match prev with
  | none => { chunk with has_overlap := some false }
  | some p =>
    let overlap := findGoodOverlap (strip (takeLast cfg.chunk_overlap p.text))
    let text := if !overlap.isEmpty then overlap ++ ' ' :: chunk.text else chunk.text
    { chunk with text := text, has_overlap := some (decide (0 < cfg.chunk_overlap)) }

/-- the stitching loop over `enumerate(chunks)`, carrying the predecessor -/
def stitchGo (cfg : ChunkerConfig) (p : Chunk) : List Chunk → List Chunk
  | [] => []
  | c :: rest => stitchOne cfg (some p) c :: stitchGo cfg c rest

def stitchChunks (cfg : ChunkerConfig) : List Chunk → List Chunk
  | [] => []
  | c :: rest => stitchOne cfg none c :: stitchGo cfg c rest

/-- `DocumentChunker._add_overlap_and_validate` (chunker.py lines 286-318);
the unused `original_text` argument is kept for fidelity. -/
def addOverlapAndValidate (cfg : ChunkerConfig) (chunks : List Chunk)
    (original_text : PyStr) : List Chunk :=
  if chunks.isEmpty || cfg.chunk_overlap = 0 then filterValidChunks cfg chunks
  else filterValidChunks cfg (stitchChunks cfg chunks)

/-- `DocumentChunker.chunk_text` (chunker.py lines 47-75). -/
def chunkText (cfg : ChunkerConfig) (text : PyStr) (document_type : PyStr) : List Chunk :=
  let cleaned := preprocessText text
  let chunks :=
    if lowerStr document_type = str "pdf" then chunkPdfStyle cfg cleaned
    else if lowerStr document_type = str "docx" then chunkStructuredDocument cfg cleaned
    else chunkGenericText cfg cleaned
  addOverlapAndValidate cfg chunks cleaned

/-- `chunk_document` convenience function (chunker.py lines 361-376) with the
settings defaults resolved (`chunk_size=1000`, `chunk_overlap=200`,
`min_chunk_length=10` from settings.py) unless overridden. -/
def chunkDocument (text : PyStr) (document_type : PyStr) (chunk_size chunk_overlap : Nat)
    (min_chunk_length : Nat) : List Chunk :=
  chunkText ⟨chunk_size, chunk_overlap, min_chunk_length⟩ text document_type

/-! ### retriever.py: query analysis, candidate filtering, ranking, formatting.
Python floats are modelled as exact rationals. -/

/-- result dictionary of `QueryProcessor.preprocess_query` -/
structure QueryData where
  original : PyStr
  processed : PyStr
  expanded : PyStr
  key_terms : List PyStr
  intent : PyStr
  length : Nat
deriving Repr, DecidableEq

/-- the metadata dictionary a candidate carries (fields the ranking and
formatting code reads; absent keys are `none`) -/
structure CandMeta where
  has_title : Option Bool
  chunk_type : Option PyStr
  word_count : Option Nat
  section_header : Option PyStr
deriving Repr, DecidableEq

/-- empty metadata dictionary -/
def CandMeta.empty : CandMeta := ⟨none, none, none, none⟩

/-- one candidate dictionary built by `_retrieve_relevant_chunks` (lines 181-187),
with the keys later loops may add (`keyword_matches`, `keyword_score`,
`has_exact_phrase`, `relevance_score`) present from the start with the
defaults the reading code would supply for a missing key. -/
structure Candidate where
  text : PyStr
  metadata : CandMeta
  vector_distance : ℚ
  vector_rank : Nat
  keyword_matches : Nat
  keyword_score : ℚ
  has_exact_phrase : Option Bool
  relevance_score : ℚ
deriving Repr, DecidableEq

/-- scoring pass of `ContextRetriever._apply_keyword_filtering`
(retriever.py lines 200-215) for one candidate. -/
def scoreKeywords (key_terms : List PyStr) (c : Candidate) : Candidate :=
  let text_lower := lowerStr c.text
  let kmatches := (key_terms.filter (fun t => containsSub t text_lower)).length
  let kscore : ℚ := if !key_terms.isEmpty then (kmatches : ℚ) / (key_terms.length : ℚ) else 0
  if 1 < key_terms.length then
    let phrase := joinWith [' '] key_terms
    if containsSub phrase text_lower then
      { c with keyword_matches := kmatches, keyword_score := kscore + 3/10,
               has_exact_phrase := some true }
    else
      { c with keyword_matches := kmatches, keyword_score := kscore,
               has_exact_phrase := some false }
  else { c with keyword_matches := kmatches, keyword_score := kscore }

/-- `ContextRetriever._apply_keyword_filtering` (retriever.py lines 197-225). -/
def applyKeywordFiltering (chunks : List Candidate) (key_terms : List PyStr) :
    List Candidate :=
  let scored := chunks.map (scoreKeywords key_terms)
  scored.filter fun c => decide (0 < c.keyword_matches) || decide (c.vector_distance < 1/2)

/-- composite relevance score of `ContextRetriever._rank_chunks`
(retriever.py lines 234-268) for one candidate. -/
def rankScore (query_data : QueryData) (c : Candidate) : ℚ :=
  let vector_score : ℚ := max 0 (1 - c.vector_distance)
  let s1 : ℚ := vector_score * (6/10)
  let s2 : ℚ := s1 + c.keyword_score * (3/10)
  let s3 : ℚ :=
    if (query_data.intent = str "definition" || query_data.intent = str "information") &&
        c.metadata.has_title = some true then s2 + 1/10 else s2
  let ctype := c.metadata.chunk_type.getD []
  let s4 : ℚ :=
    if ctype = str "paragraph" then s3 + 5/100
    else if ctype = str "sentence_group" then s3 + 2/100
    else s3
  let word_count := c.metadata.word_count.getD (pySplitWs c.text).length
  let s5 : ℚ := if word_count < 20 then s4 - 1/10 else s4
  if 5 < query_data.length && 100 < word_count then s5 + 5/100 else s5

/-- stable descending insertion by `relevance_score`: an element goes after
every already-placed element whose score is at least as large. -/
def insDesc (x : Candidate) : List Candidate → List Candidate
  | [] => [x]
  | y :: ys => if y.relevance_score < x.relevance_score then x :: y :: ys else y :: insDesc x ys

/-- stable descending sort by `relevance_score`; any stable sort computes the
same list as Python `sorted(..., key=score, reverse=True)`. -/
def sortByScoreDesc : List Candidate → List Candidate
  | [] => []
  | x :: xs => insDesc x (sortByScoreDesc xs)

/-- `ContextRetriever._rank_chunks` (retriever.py lines 227-282); `top_k` is the
configured `settings.retrieval_top_k`. -/
def rankChunks (top_k : Nat) (chunks : List Candidate) (query_data : QueryData) :
    List Candidate :=
  if chunks.isEmpty then []
  else
    let scored := chunks.map fun c => { c with relevance_score := rankScore query_data c }
    let ranked := sortByScoreDesc scored
    ranked.take top_k

/-- word lists of `QueryProcessor._detect_query_intent` (retriever.py lines 87-108) -/
def questionWords : List PyStr :=
  [str "how", str "what", str "when", str "where", str "why", str "who"]

def instructionWords : List PyStr :=
  [str "how to", str "steps", str "process", str "procedure", str "instruction"]

def definitionWords : List PyStr :=
  [str "what is", str "define", str "definition", str "meaning"]

def troubleshootingWords : List PyStr :=
  [str "error", str "problem", str "issue", str "fix", str "solve", str "troubleshoot"]

/-- `any(word in query_lower for word in ws)` -/
def containsAnyOf (ws : List PyStr) (s : PyStr) : Bool := ws.any fun w => containsSub w s

/-- `QueryProcessor._detect_query_intent` (retriever.py lines 87-108). -/
def detectQueryIntent (query : PyStr) : PyStr :=
  let query_lower := lowerStr query
  if containsAnyOf questionWords query_lower then str "question"
  else if containsAnyOf instructionWords query_lower then str "instruction"
  else if containsAnyOf definitionWords query_lower then str "definition"
  else if containsAnyOf troubleshootingWords query_lower then str "troubleshooting"
  else str "information"

/-- the truncation marker appended by `_format_context` (retriever.py line 321) -/
def truncMarker : PyStr := str "\n[...content truncated for length...]"

/-- the fixed `max_context_length` (retriever.py line 319) -/
def maxContextLength : Nat := 4000

/-- the parts the `_format_context` loop appends for one candidate
(retriever.py lines 301-314); `i` counts from 1 and `n` is `len(chunks)`. -/
def contextPartsFor (n i : Nat) (c : Candidate) : List PyStr :=
  let t := strip c.text
  let sec :=
    match c.metadata.section_header with
    | some h => if !h.isEmpty then ['\n' :: (str "[Section: " ++ h ++ str "]")] else []
    | none => []
  let sep := if i < n then ['\n' :: List.replicate 40 '-'] else []
  sec ++ ['\n' :: t] ++ sep

/-- `ContextRetriever._format_context` (retriever.py lines 284-324). -/
def formatContext (chunks : List Candidate) (query_data : QueryData) : PyStr :=
  if chunks.isEmpty then []
  else
    let header :=
      if query_data.intent = str "instruction" || query_data.intent = str "troubleshooting" then
        str "RELEVANT PROCEDURES AND INSTRUCTIONS:"
      else if query_data.intent = str "definition" then
        str "RELEVANT DEFINITIONS AND EXPLANATIONS:"
      else str "RELEVANT INFORMATION:"
    let parts := header :: (chunks.enum.map fun p => contextPartsFor chunks.length (p.1 + 1) p.2).flatten
    let context := joinWith ['\n'] parts
    if maxContextLength < context.length then context.take maxContextLength ++ truncMarker
    else context

/-! ### specification-side definitions used to state refinement results -/

/-- at most two consecutive newline characters anywhere; the first argument is
the length of the newline streak already seen. -/
def nlStreakOk : Nat → PyStr → Bool
  | _, [] => true
  | k, c :: t => if c = '\n' then decide (k + 1 ≤ 2) && nlStreakOk (k + 1) t else nlStreakOk 0 t

/-- `s` contains at most two consecutive newline characters -/
def noTriple (s : PyStr) : Bool := nlStreakOk 0 s

/-- the overlap break-point choice as the amended claim words it: a window under
20 characters is discarded first; otherwise text after the last sentence
boundary; otherwise the last 5 of more than 5 words; otherwise the whole
window. -/
def findGoodOverlapSpec (window : PyStr) : PyStr :=
  if window.length < 20 then []
  else if 1 < (sentenceSplit window).length then strip ((sentenceSplit window).getLastD [])
  else if 5 < (pySplitWs window).length then
    joinWith [' '] ((pySplitWs window).drop ((pySplitWs window).length - 5))
  else window

/-- the sentence rebuild described by the amended claim: split on sentence-ending
punctuation followed by whitespace, strip each piece, drop empty pieces, and
append the fixed string `". "` to every piece except the one at the final
split index. -/
def rebuiltSentences (text : PyStr) : List PyStr :=
  let sentences := sentenceSplit text
  sentences.enum.filterMap fun p =>
    let s1 := strip p.2
    if s1.isEmpty then none
    else some (if p.1 < sentences.length - 1 then s1 ++ str ". " else s1)

/-- greedy packing of already-rebuilt sentences into `sentence_group` units,
with word-level overflow for a single oversized sentence. -/
def packSentencesGo (cfg : ChunkerConfig) : List PyStr → PackSt → List Chunk
  | [], st =>
    if !st.current.isEmpty then
      st.chunks ++ [createChunkData st.current st.idx st.off (str "sentence_group")]
    else st.chunks
  | s :: rest, st =>
    if st.current.length + s.length ≤ cfg.chunk_size then
      packSentencesGo cfg rest { st with current := st.current ++ s }
    else
      let fl :=
        if !st.current.isEmpty then
          ({ chunks := st.chunks ++
               [createChunkData st.current st.idx st.off (str "sentence_group")]
             current := st.current, idx := st.idx + 1,
             off := st.off + st.current.length } : PackSt)
        else st
      if cfg.chunk_size < s.length then
        let oc := splitOverflowText cfg s fl.idx fl.off
        packSentencesGo cfg rest
          { chunks := fl.chunks ++ oc, current := [],
            idx := fl.idx + oc.length, off := fl.off + s.length }
      else
        packSentencesGo cfg rest { chunks := fl.chunks, current := s, idx := fl.idx, off := fl.off }

/-- sentence-level fallback as the amended claim words it: split, rebuild with
`". "`, then greedily pack. -/
def splitBySentencesSpec (cfg : ChunkerConfig) (text : PyStr) (start_index start_char : Nat) :
    List Chunk :=
  packSentencesGo cfg (rebuiltSentences text) ⟨[], [], start_index, start_char⟩

/-- scenario candidates of claim C4: vector distances 0.1, 0.4, 0.9, no keyword
matches against the key term `"zzz"` -/
def c4cand (d : ℚ) (r : Nat) : Candidate := ⟨str "xxx", CandMeta.empty, d, r, 0, 0, none, 0⟩

/-- scenario query profile of claim C4 -/
def c4qd : QueryData := ⟨str "find zzz", str "find zzz", str "find zzz",
  [str "zzz"], str "information", 1⟩

/-- counterexample candidate of claim C6: 4100 characters of text -/
def c6cand : Candidate := ⟨List.replicate 4100 'a', CandMeta.empty, 1/10, 0, 0, 0, none, 0⟩

/-- counterexample query profile of claim C6 -/
def c6qd : QueryData := ⟨str "q", str "q", str "q", [], str "information", 1⟩

/-! ## Claims -/

theorem joinWith_pair (s a b : PyStr) : joinWith s [a, b] = a ++ s ++ b := by
  simp [joinWith, List.intercalate]

theorem dropWhile_replicate_of_neg {p : Char → Bool} {a : Char} (h : p a = false) (n : Nat) :
    (List.replicate n a).dropWhile p = List.replicate n a := by
  cases n with
  | zero => simp
  | succ m => simp [List.replicate_succ, List.dropWhile_cons, h]

theorem rstrip_replicate_of_neg {a : Char} (h : pyWs a = false) (n : Nat) :
    rstrip (List.replicate n a) = List.replicate n a := by
  induction n with
  | zero => simp [rstrip]
  | succ m ih => simp [List.replicate_succ, rstrip, ih, h]

theorem strip_replicate_of_neg {a : Char} (h : pyWs a = false) (n : Nat) :
    strip (List.replicate n a) = List.replicate n a := by
  simp [strip, lstrip, dropWhile_replicate_of_neg h, rstrip_replicate_of_neg h]

/-- `_format_context` on a single candidate without section header and with a
plain-information intent -/
theorem formatContext_single (c : Candidate) (qd : QueryData)
    (hsec : c.metadata.section_header = none)
    (h1 : qd.intent ≠ str "instruction") (h2 : qd.intent ≠ str "troubleshooting")
    (h3 : qd.intent ≠ str "definition") :
    formatContext [c] qd =
      (if maxContextLength < (str "RELEVANT INFORMATION:" ++ '\n' :: '\n' :: strip c.text).length
       then (str "RELEVANT INFORMATION:" ++ '\n' :: '\n' :: strip c.text).take maxContextLength
              ++ truncMarker
       else str "RELEVANT INFORMATION:" ++ '\n' :: '\n' :: strip c.text) := by
  rw [formatContext]
  simp only [List.isEmpty_cons, Bool.false_eq_true, if_false, h1, h2, h3, decide_eq_true_eq,
    Bool.or_eq_true, or_false, if_neg, List.enum, List.enumFrom, List.length_cons,
    List.length_nil, List.map_cons, List.map_nil, List.flatten]
  simp only [contextPartsFor, hsec, Nat.lt_irrefl, if_false, List.nil_append, List.append_nil]
  rw [joinWith_pair]
  simp

/-- whatever the rendered context is, the final output of the cap step is at
most `maxContextLength` plus the marker length -/
theorem cappedLen (L : PyStr) :
    (if maxContextLength < L.length then L.take maxContextLength ++ truncMarker
     else L).length ≤ maxContextLength + truncMarker.length := by
  split
  · simp only [List.length_append, List.length_take]
    omega
  · rename_i h
    omega

/-- Claim C6, counterexample: a single 4100-character candidate renders to a
4123-character context, and the truncated output is 4037 characters long,
which exceeds the 4000-character cap by the appended marker. -/
theorem claim_c6_counterexample :
    maxContextLength < (formatContext [c6cand] c6qd).length ∧
    (formatContext [c6cand] c6qd).length = maxContextLength + truncMarker.length := by
  have hstrip : strip (List.replicate 4100 'a') = List.replicate 4100 'a' :=
    strip_replicate_of_neg (by decide) 4100
  have heq := formatContext_single c6cand c6qd (by rfl) (by decide) (by decide) (by decide)
  rw [heq, show c6cand.text = List.replicate 4100 'a' from rfl, hstrip]
  have hlen : (str "RELEVANT INFORMATION:" ++ '\n' :: '\n' :: List.replicate 4100 'a').length
      = 4123 := by
    simp only [List.length_append, List.length_cons, List.length_replicate]
    rfl
  rw [if_pos (by rw [hlen]; decide)]
  refine ⟨?_, ?_⟩
  · simp only [List.length_append, List.length_take, hlen]
    decide
  · simp only [List.length_append, List.length_take, hlen]
    decide

/-- Claim C6 (amended): the composed context never exceeds 4000 characters
plus the length of the truncation marker (37 characters); the 4000-character
cap is applied to the rendered string before the marker is appended, so a
truncated output is exactly 4037 characters long. -/
theorem claim_c6_amended (chunks : List Candidate) (qd : QueryData) :
    (formatContext chunks qd).length ≤ maxContextLength + truncMarker.length := by
  rw [formatContext]
  split
  · simp
  · exact cappedLen _

/-- Claim C3, counterexample: the window `"Hi. Go now"` is 10 characters long
and contains a sentence boundary; the claim's chain (boundary check before the
under-20 discard) would keep `"Go now"`, but `_find_good_overlap` returns the
empty string because the under-20 check runs first. -/
theorem claim_c3_counterexample :
    (str "Hi. Go now").length < 20 ∧
    1 < (sentenceSplit (str "Hi. Go now")).length ∧
    strip ((sentenceSplit (str "Hi. Go now")).getLastD []) = str "Go now" ∧
    findGoodOverlap (str "Hi. Go now") = [] ∧
    ([] : PyStr) ≠ str "Go now" := by
  refine ⟨by decide, by decide, by decide, by decide, by decide⟩

/-- Claim C3 (amended): the stitcher first discards windows under 20
characters; only otherwise does it keep the text after the last sentence
boundary, else the last 5 of more than 5 words, else the whole window. -/
theorem claim_c3_amended :
    ∀ window : PyStr, findGoodOverlap window = findGoodOverlapSpec window := by
  intro window
  unfold findGoodOverlap findGoodOverlapSpec
  rfl

/-- Claim C5: the question-word check is evaluated before the instruction
check, so any query whose lowercase form contains a question word classifies as
`question`; in particular `"how to reset a password"` does, and `"question"`
differs from `"instruction"`. -/
theorem claim_c5_intent_priority :
    (∀ q : PyStr, containsAnyOf questionWords (lowerStr q) = true →
        detectQueryIntent q = str "question") ∧
    detectQueryIntent (str "how to reset a password") = str "question" ∧
    str "question" ≠ str "instruction" := by
  refine ⟨?_, by decide, by decide⟩
  intro q h
  unfold detectQueryIntent
  simp [h]

/-- Claim C5 witness: a concrete query containing a question word classifies as
`question` by the general part of the claim theorem. -/
theorem claim_c5_witness :
    containsAnyOf questionWords (lowerStr (str "what is docker")) = true ∧
    detectQueryIntent (str "what is docker") = str "question" :=
  ⟨by decide, claim_c5_intent_priority.1 (str "what is docker") (by decide)⟩

/-- Claim C4: a scored candidate is dropped by `_apply_keyword_filtering` if
and only if it has no keyword match and vector distance at least 0.5; and in
the 0.1/0.4/0.9 scenario with zero keyword matches and `top_k = 2`, the filter
keeps exactly the first two and ranking returns them in ascending-distance
order. -/
theorem claim_c4_keyword_filter :
    (∀ (key_terms : List PyStr) (cands : List Candidate) (c : Candidate),
        c ∈ cands.map (scoreKeywords key_terms) →
        (c ∉ applyKeywordFiltering cands key_terms ↔
          (¬ 0 < c.keyword_matches ∧ ¬ c.vector_distance < 1/2))) ∧
    (applyKeywordFiltering [c4cand (1/10) 0, c4cand (2/5) 1, c4cand (9/10) 2]
        [str "zzz"]).map (fun c => c.vector_distance) = [1/10, 2/5] ∧
    (rankChunks 2
        (applyKeywordFiltering [c4cand (1/10) 0, c4cand (2/5) 1, c4cand (9/10) 2] [str "zzz"])
        c4qd).map (fun c => c.vector_distance) = [1/10, 2/5] := by
  have hscored :
      applyKeywordFiltering [c4cand (1/10) 0, c4cand (2/5) 1, c4cand (9/10) 2] [str "zzz"]
        = [{ c4cand (1/10) 0 with keyword_matches := 0, keyword_score := 0 },
           { c4cand (2/5) 1 with keyword_matches := 0, keyword_score := 0 }] := by
    simp +decide [applyKeywordFiltering, scoreKeywords, c4cand, lowerStr, containsSub,
      startsWith, str, joinWith]
    norm_num
  refine ⟨?_, ?_, ?_⟩
  · intro key_terms cands c hc
    unfold applyKeywordFiltering
    simp only [List.mem_filter, hc, true_and, Bool.or_eq_true, decide_eq_true_eq, not_or]
  · rw [hscored]; norm_num [c4cand]
  · rw [hscored]
    simp +decide [rankChunks, rankScore, sortByScoreDesc, insDesc, c4cand, c4qd,
      CandMeta.empty, pySplitWs, pySplitWsGo, str]
    norm_num

/-- Claim C4 witness: the dropped-iff characterization applied to the scenario
candidate with distance 0.9 and no keyword match. -/
theorem claim_c4_witness :
    scoreKeywords [str "zzz"] (c4cand (9/10) 2) ∈
      ([c4cand (1/10) 0, c4cand (2/5) 1, c4cand (9/10) 2].map (scoreKeywords [str "zzz"])) ∧
    scoreKeywords [str "zzz"] (c4cand (9/10) 2) ∉
      applyKeywordFiltering [c4cand (1/10) 0, c4cand (2/5) 1, c4cand (9/10) 2] [str "zzz"] := by
  constructor
  · exact List.mem_map_of_mem _ (by simp)
  · refine (claim_c4_keyword_filter.1 [str "zzz"] _ _
      (List.mem_map_of_mem _ (by simp))).mpr ?_
    constructor
    · norm_num [scoreKeywords, c4cand, lowerStr, containsSub, startsWith, str]
      decide
    · norm_num [scoreKeywords, c4cand]

/-- Claim C1, counterexample: `"ab\n\ncd\n\nef"` is non-empty, not whitespace,
and of length exactly the default `min_chunk_length = 10`, yet `chunk_document`
with the default configuration returns no units, because every individual
paragraph is shorter than `min_chunk_length`. -/
theorem claim_c1_counterexample :
    (str "ab\n\ncd\n\nef").length = 10 ∧
    ((str "ab\n\ncd\n\nef").all pyWs) = false ∧
    chunkDocument (str "ab\n\ncd\n\nef") (str "generic") 1000 200 10 = [] := by
  refine ⟨by decide, by decide, by decide⟩

/-- Claim C2, counterexample text: two letter-only paragraphs of 25 and 30
characters. -/
def c2text : PyStr := str "aaaaabbbbbcccccdddddeeeee\n\nfffffggggghhhhhiiiiijjjjjkkkkk"

/-- Claim C2, counterexample: with `chunk_size = 30` and `chunk_overlap = 25`
the second emitted unit is 56 characters long, exceeding
`chunk_size + chunk_overlap = 55` by the joining space, and it is not a single
overflow word: none of its words exceeds the budget. -/
theorem claim_c2_counterexample :
    ((chunkDocument c2text (str "generic") 30 25 10).map (fun c => c.text.length))
      = [25, 56] ∧
    30 + 25 < 56 ∧
    (∃ ch ∈ chunkDocument c2text (str "generic") 30 25 10,
      ch.text.length = 56 ∧ ∀ w ∈ pySplitWs ch.text, w.length ≤ 30) := by
  refine ⟨by decide, by decide, by decide⟩

/-- Claim C7, counterexample: form feeds are rewritten to paragraph breaks only
after blank lines are capped, so `"a\f\fb"` normalizes to a text with four
consecutive newlines. -/
theorem claim_c7_counterexample :
    noTriple (preprocessText (str "a\x0c\x0cb")) = false := by decide

/-- loop fission for `_split_by_sentences`: the per-piece strip/skip/reattach
work commutes with the greedy packing loop -/
theorem splitSentGo_eq_pack (cfg : ChunkerConfig) (n : Nat) (pieces : List (Nat × PyStr))
    (st : PackSt) :
    splitSentGo cfg n pieces st =
      packSentencesGo cfg (pieces.filterMap (fun p =>
        if (strip p.2).isEmpty then none
        else some (if p.1 < n - 1 then strip p.2 ++ str ". " else strip p.2))) st := by
  induction pieces generalizing st with
  | nil => rfl
  | cons p rest ih =>
    obtain ⟨i, sent⟩ := p
    by_cases h : (strip sent).isEmpty
    · simp only [splitSentGo, List.filterMap_cons, h, if_true, ih]
    · simp only [splitSentGo, List.filterMap_cons, h, if_false, Bool.false_eq_true,
        packSentencesGo, ih]

/-- Claim C8 (amended): the sentence-level fallback equals the pipeline that
splits on sentence-ending punctuation followed by whitespace, reattaches the
fixed string `". "` (not the original terminator) to every non-final raw
piece, and greedily packs into `sentence_group` units; and every stripped
non-final nonempty piece appears in the rebuilt list with `". "` appended. -/
theorem claim_c8_amended :
    (∀ (cfg : ChunkerConfig) (text : PyStr) (start_index start_char : Nat),
        splitBySentences cfg text start_index start_char =
          splitBySentencesSpec cfg text start_index start_char) ∧
    (∀ (text : PyStr) (i : Nat) (sent : PyStr),
        (i, sent) ∈ (sentenceSplit text).enum → i < (sentenceSplit text).length - 1 →
        (strip sent).isEmpty = false →
        (strip sent ++ str ". ") ∈ rebuiltSentences text) := by
  constructor
  · intro cfg text start_index start_char
    unfold splitBySentences splitBySentencesSpec rebuiltSentences
    exact splitSentGo_eq_pack cfg _ _ _
  · intro text i sent hmem hidx hne
    unfold rebuiltSentences
    rw [List.mem_filterMap]
    exact ⟨(i, sent), hmem, by simp [hne, hidx]⟩

/-- Claim C8 witness: the amended equality and the `". "` reattachment on the
concrete paragraph `"Stop! Go away now"`. -/
theorem claim_c8_witness :
    splitBySentences ⟨8, 0, 10⟩ (str "Stop! Go away now") 0 0 =
      splitBySentencesSpec ⟨8, 0, 10⟩ (str "Stop! Go away now") 0 0 ∧
    (strip (str "Stop") ++ str ". ") ∈ rebuiltSentences (str "Stop! Go away now") :=
  ⟨claim_c8_amended.1 ⟨8, 0, 10⟩ (str "Stop! Go away now") 0 0,
   claim_c8_amended.2 (str "Stop! Go away now") 0 (str "Stop")
     (by decide) (by decide) (by decide)⟩

/-- Claim C8, counterexample: the first raw sentence of `"Stop! Go away now"`
ends in `"!"`, but the rebuilt sentence is `"Stop. "`: the code reattaches the
fixed string `". "`, not the original terminator. -/
theorem claim_c8_counterexample :
    (sentenceSplit (str "Stop! Go away now")).headD [] = str "Stop" ∧
    (rebuiltSentences (str "Stop! Go away now")).headD [] = str "Stop. " ∧
    str "Stop. " ≠ str "Stop! " ∧
    ((splitBySentences ⟨8, 0, 10⟩ (str "Stop! Go away now") 0 0).map
        (fun c => c.text)).headD [] = str "Stop." := by
  refine ⟨by decide, by decide, by decide, by decide⟩

/-- every chunk stitched with a predecessor carries
`has_overlap = some (0 < chunk_overlap)` -/
theorem stitchGo_has_overlap (cfg : ChunkerConfig) (p : Chunk) (l : List Chunk) :
    ∀ j (hj : j < (stitchGo cfg p l).length),
      ((stitchGo cfg p l).get ⟨j, hj⟩).has_overlap = some (decide (0 < cfg.chunk_overlap)) := by
  induction l generalizing p with
  | nil => intro j hj; simp [stitchGo] at hj
  | cons c rest ih =>
    intro j hj
    cases j with
    | zero => simp [stitchGo, stitchOne]
    | succ j =>
      simp only [stitchGo, List.get_cons_succ]
      exact ih c j (by simpa [stitchGo] using hj)

/-- Claim C10: when `chunk_overlap > 0`, every unit of the stitching loop's
output at index `i > 0` has `has_overlap = true` (independently of whether a
fragment was actually prepended), and the unit at index 0 has
`has_overlap = false`. -/
theorem claim_c10_has_overlap (cfg : ChunkerConfig) (chunks : List Chunk)
    (hov : 0 < cfg.chunk_overlap) :
    ∀ i (hi : i < (stitchChunks cfg chunks).length),
      ((stitchChunks cfg chunks).get ⟨i, hi⟩).has_overlap = some (decide (0 < i)) := by
  intro i hi
  cases chunks with
  | nil => simp [stitchChunks] at hi
  | cons c rest =>
    cases i with
    | zero => simp [stitchChunks, stitchOne]
    | succ i =>
      simp only [stitchChunks, List.get_cons_succ]
      rw [stitchGo_has_overlap cfg c rest i (by simpa [stitchChunks] using hi)]
      simp [hov]

/-- Claim C10 witness: two concrete chunks whose overlap window is shorter than
20 characters (so no fragment is prepended), stitched with `chunk_overlap =
200`: index 1 gets `has_overlap = true`, index 0 gets `has_overlap = false`,
and the second text is unchanged. -/
theorem claim_c10_witness :
    ((stitchChunks ⟨1000, 200, 10⟩
        [⟨str "----------", 0, 0, 10, str "paragraph", 1, 1, false, none, none⟩,
         ⟨str "second chunk text here", 1, 10, 32, str "paragraph", 4, 1, false, none, none⟩]).get
      ⟨1, by decide⟩).has_overlap = some true ∧
    ((stitchChunks ⟨1000, 200, 10⟩
        [⟨str "----------", 0, 0, 10, str "paragraph", 1, 1, false, none, none⟩,
         ⟨str "second chunk text here", 1, 10, 32, str "paragraph", 4, 1, false, none, none⟩]).get
      ⟨0, by decide⟩).has_overlap = some false ∧
    ((stitchChunks ⟨1000, 200, 10⟩
        [⟨str "----------", 0, 0, 10, str "paragraph", 1, 1, false, none, none⟩,
         ⟨str "second chunk text here", 1, 10, 32, str "paragraph", 4, 1, false, none, none⟩]).get
      ⟨1, by decide⟩).text = str "second chunk text here" := by
  refine ⟨?_, ?_, by decide⟩
  · have h := claim_c10_has_overlap ⟨1000, 200, 10⟩
      [⟨str "----------", 0, 0, 10, str "paragraph", 1, 1, false, none, none⟩,
       ⟨str "second chunk text here", 1, 10, 32, str "paragraph", 4, 1, false, none, none⟩]
      (by decide) 1 (by decide)
    simpa using h
  · have h := claim_c10_has_overlap ⟨1000, 200, 10⟩
      [⟨str "----------", 0, 0, 10, str "paragraph", 1, 1, false, none, none⟩,
       ⟨str "second chunk text here", 1, 10, 32, str "paragraph", 4, 1, false, none, none⟩]
      (by decide) 0 (by decide)
    simpa using h

theorem nlOk_mono {s : PyStr} {j k : Nat} (hjk : j ≤ k) (h : nlStreakOk k s = true) :
    nlStreakOk j s = true := by
  induction s generalizing j k with
  | nil => simp [nlStreakOk]
  | cons c t ih =>
    simp only [nlStreakOk] at h ⊢
    by_cases hc : c = '\n'
    · simp only [hc, if_true, Bool.and_eq_true, decide_eq_true_eq] at h ⊢
      exact ⟨by omega, ih (by omega) h.2⟩
    · simp only [hc, if_false] at h ⊢
      exact h

theorem nlOk_suffix {a b : PyStr} {k : Nat} (h : nlStreakOk k (a ++ b) = true) :
    nlStreakOk 0 b = true := by
  induction a generalizing k with
  | nil => exact nlOk_mono (Nat.zero_le k) h
  | cons c t ih =>
    simp only [List.cons_append, nlStreakOk] at h
    by_cases hc : c = '\n'
    · simp only [hc, if_true, Bool.and_eq_true] at h
      exact ih h.2
    · simp only [hc, if_false] at h
      exact ih h

theorem nlOk_append_replace {a r x : PyStr} {k : Nat} (h : nlStreakOk k (a ++ r) = true)
    (hx0 : x.headD ' ' ≠ '\n') (hx : nlStreakOk 0 x = true) :
    nlStreakOk k (a ++ x) = true := by
  induction a generalizing k with
  | nil =>
    cases x with
    | nil => simp [nlStreakOk]
    | cons c t =>
      simp only [List.headD_cons] at hx0
      simp only [List.nil_append, nlStreakOk, hx0, if_false]
      simpa [nlStreakOk, hx0] using hx
  | cons c t ih =>
    simp only [List.cons_append, nlStreakOk] at h ⊢
    by_cases hc : c = '\n'
    · simp only [hc, if_true, Bool.and_eq_true] at h ⊢
      exact ⟨h.1, ih h.2⟩
    · simp only [hc, if_false] at h ⊢
      exact ih h

theorem subNl3Go_ok (t : PyStr) : ∀ k, k ≤ 2 → nlStreakOk k (subNl3Go k t) = true := by
  induction t with
  | nil => intro k _; simp [subNl3Go, nlStreakOk]
  | cons c t ih =>
    intro k hk
    by_cases hc : c = '\n'
    · simp only [subNl3Go, hc, if_true]
      by_cases h2 : k < 2
      · simp only [h2, if_true, nlStreakOk, if_true, Bool.and_eq_true, decide_eq_true_eq]
        exact ⟨by omega, ih (k + 1) (by omega)⟩
      · simp only [h2, if_false]
        exact ih k hk
    · simp only [subNl3Go, hc, if_false, nlStreakOk]
      exact ih 0 (by omega)

theorem nlOk_append_left {a b : PyStr} {k : Nat} (h : nlStreakOk k (a ++ b) = true) :
    nlStreakOk k a = true := by
  induction a generalizing k with
  | nil => simp [nlStreakOk]
  | cons c t ih =>
    simp only [List.cons_append, nlStreakOk] at h ⊢
    by_cases hc : c = '\n'
    · simp only [hc, if_true, Bool.and_eq_true] at h ⊢
      exact ⟨h.1, ih h.2⟩
    · simp only [hc, if_false] at h ⊢
      exact ih h

theorem punctCls_ne_nl {c : Char} (h : punctCls c = true) : c ≠ '\n' := by
  intro he
  rw [he] at h
  simp [punctCls] at h

theorem pyWs_ne_nl {c : Char} (h : pyWs c = false) : c ≠ '\n' := by
  intro he
  rw [he] at h
  simp [pyWs] at h

theorem subWsPunctGo_ok (t : PyStr) :
    ∀ (pending : PyStr) (k : Nat), nlStreakOk k (pending.reverse ++ t) = true →
      nlStreakOk k (subWsPunctGo pending t) = true := by
  induction t with
  | nil =>
    intro pending k h
    simpa [subWsPunctGo] using nlOk_append_left h
  | cons c t ih =>
    intro pending k h
    by_cases hw : pyWs c
    · simp only [subWsPunctGo, hw, if_true]
      apply ih (c :: pending) k
      simpa [List.append_assoc] using h
    · have h0 : nlStreakOk 0 t = true := by
        have h2 : nlStreakOk k ((pending.reverse ++ [c]) ++ t) = true := by
          simpa [List.append_assoc] using h
        exact nlOk_suffix h2
      by_cases hp : punctCls c
      · simp only [subWsPunctGo, hw, if_false, hp, if_true, Bool.false_eq_true]
        have hcn : c ≠ '\n' := punctCls_ne_nl hp
        simp only [nlStreakOk, hcn, if_false]
        exact ih [] 0 (by simpa using h0)
      · simp only [subWsPunctGo, hw, hp, if_false, Bool.false_eq_true]
        have hcn : c ≠ '\n' := pyWs_ne_nl (by simpa using hw)
        apply nlOk_append_replace h
        · simpa using hcn
        · simp only [nlStreakOk, hcn, if_false]
          exact ih [] 0 (by simpa using h0)

theorem subPunctWsGo_ok (t : PyStr) :
    ∀ (k : Nat) (m : PwMode), nlStreakOk k t = true → (m = PwMode.skipW → k = 0) →
      nlStreakOk k (subPunctWsGo m t) = true := by
  induction t with
  | nil => intro k m _ _; cases m <;> simp [subPunctWsGo, nlStreakOk]
  | cons c t ih =>
    intro k m h hm
    by_cases hc : c = '\n'
    · subst hc
      simp only [nlStreakOk, if_true] at h
      rw [Bool.and_eq_true, decide_eq_true_eq] at h
      have hws : pyWs '\n' = true := by decide
      have hsp : sentPunct '\n' = false := by decide
      cases m with
      | norm =>
        simp only [subPunctWsGo, hsp, Bool.false_eq_true, if_false, nlStreakOk, if_true]
        rw [Bool.and_eq_true, decide_eq_true_eq]
        exact ⟨h.1, ih (k + 1) .norm h.2 (by intro hx; cases hx)⟩
      | sawP =>
        simp only [subPunctWsGo, hws, if_true]
        have hsp2 : (' ' : Char) ≠ '\n' := by decide
        simp only [nlStreakOk, hsp2, if_false]
        exact ih 0 .skipW (nlOk_mono (Nat.zero_le _) h.2) (fun _ => rfl)
      | skipW =>
        simp only [subPunctWsGo, hws, if_true]
        have hk0 : k = 0 := hm rfl
        subst hk0
        exact ih 0 .skipW (nlOk_mono (Nat.zero_le _) h.2) (fun _ => rfl)
    · have h0 : nlStreakOk 0 t = true := by
        simp only [nlStreakOk, hc, if_false] at h
        exact h
      have hgoal : ∀ m2 : PwMode, (m2 = PwMode.skipW → False) →
          nlStreakOk k (c :: subPunctWsGo m2 t) = true := by
        intro m2 hm2
        simp only [nlStreakOk, hc, if_false]
        exact ih 0 m2 h0 (fun hx => absurd hx hm2)
      by_cases hws : pyWs c
      · have hsp : sentPunct c = false := by
          cases hq : sentPunct c
          · rfl
          · have h1 : (c = '.' ∨ c = '!') ∨ c = '?' := by simpa [sentPunct] using hq
            rcases h1 with (h1 | h1) | h1 <;> rw [h1] at hws <;> exact absurd hws (by decide)
        cases m with
        | norm => simp only [subPunctWsGo, hsp, Bool.false_eq_true, if_false]
                  exact hgoal .norm (by intro hx; cases hx)
        | sawP =>
          simp only [subPunctWsGo, hws, if_true]
          have hsp2 : (' ' : Char) ≠ '\n' := by decide
          simp only [nlStreakOk, hsp2, if_false]
          exact ih 0 .skipW h0 (fun _ => rfl)
        | skipW =>
          simp only [subPunctWsGo, hws, if_true]
          have hk0 : k = 0 := hm rfl
          subst hk0
          exact ih 0 .skipW h0 (fun _ => rfl)
      · cases m with
        | norm =>
          by_cases hsp : sentPunct c
          · simp only [subPunctWsGo, hsp, if_true]
            exact hgoal .sawP (by intro hx; cases hx)
          · simp only [subPunctWsGo, hsp, Bool.false_eq_true, if_false]
            exact hgoal .norm (by intro hx; cases hx)
        | sawP =>
          simp only [subPunctWsGo, hws, Bool.false_eq_true, if_false]
          by_cases hsp : sentPunct c
          · simp only [hsp, if_true]
            exact hgoal .sawP (by intro hx; cases hx)
          · simp only [hsp, Bool.false_eq_true, if_false]
            exact hgoal .norm (by intro hx; cases hx)
        | skipW =>
          simp only [subPunctWsGo, hws, Bool.false_eq_true, if_false]
          by_cases hsp : sentPunct c
          · simp only [hsp, if_true]
            exact hgoal .sawP (by intro hx; cases hx)
          · simp only [hsp, Bool.false_eq_true, if_false]
            exact hgoal .norm (by intro hx; cases hx)

theorem nlOk_rstrip (s : PyStr) : ∀ k, nlStreakOk k s = true → nlStreakOk k (rstrip s) = true := by
  induction s with
  | nil => intro k h; simpa [rstrip] using h
  | cons c t ih =>
    intro k h
    simp only [rstrip]
    split
    · simp [nlStreakOk]
    · simp only [nlStreakOk] at h ⊢
      by_cases hc : c = '\n'
      · simp only [hc, if_true, Bool.and_eq_true] at h ⊢
        exact ⟨h.1, ih _ h.2⟩
      · simp only [hc, if_false] at h ⊢
        exact ih _ h

theorem noTriple_strip {s : PyStr} (h : noTriple s = true) : noTriple (strip s) = true := by
  unfold noTriple at h ⊢
  apply nlOk_rstrip
  unfold lstrip
  have h2 : nlStreakOk 0 (s.takeWhile pyWs ++ s.dropWhile pyWs) = true := by
    rw [List.takeWhile_append_dropWhile]; exact h
  exact nlOk_suffix h2

theorem noFF_subSpaceTabGo {s : PyStr} (h : '\x0c' ∉ s) (b : Bool) :
    '\x0c' ∉ subSpaceTabGo b s := by
  induction s generalizing b with
  | nil => simp [subSpaceTabGo]
  | cons c t ih =>
    simp only [List.mem_cons, not_or] at h
    simp only [subSpaceTabGo]
    split
    · split
      · exact ih h.2 _
      · intro hm
        rcases List.mem_cons.mp hm with he | he
        · cases he
        · exact ih h.2 _ he
    · intro hm
      rcases List.mem_cons.mp hm with he | he
      · exact h.1 he
      · exact ih h.2 _ he

theorem noFF_subNlSpaceGo {s : PyStr} (h : '\x0c' ∉ s) (b : Bool) :
    '\x0c' ∉ subNlSpaceGo b s := by
  induction s generalizing b with
  | nil => simp [subNlSpaceGo]
  | cons c t ih =>
    simp only [List.mem_cons, not_or] at h
    simp only [subNlSpaceGo]
    split
    · intro hm
      rcases List.mem_cons.mp hm with he | he
      · cases he
      · exact ih h.2 _ he
    · split
      · exact ih h.2 _
      · intro hm
        rcases List.mem_cons.mp hm with he | he
        · exact h.1 he
        · exact ih h.2 _ he

theorem noFF_subSpaceNlGo {s : PyStr} (h : '\x0c' ∉ s) :
    ∀ pending : PyStr, '\x0c' ∉ pending → '\x0c' ∉ subSpaceNlGo pending s := by
  induction s with
  | nil =>
    intro pending hp
    simpa [subSpaceNlGo] using fun hm => hp hm
  | cons c t ih =>
    intro pending hp
    simp only [List.mem_cons, not_or] at h
    simp only [subSpaceNlGo]
    split
    · exact ih h.2 _ (by simp only [List.mem_cons, not_or]; exact ⟨fun he => h.1 he, hp⟩)
    · split
      · intro hm
        rcases List.mem_cons.mp hm with he | he
        · cases he
        · exact ih h.2 [] (by simp) he
      · intro hm
        rcases List.mem_append.mp hm with he | he
        · exact hp (List.mem_reverse.mp he)
        · rcases List.mem_cons.mp he with he2 | he2
          · exact h.1 he2
          · exact ih h.2 [] (by simp) he2

theorem noFF_subNl3Go {s : PyStr} (h : '\x0c' ∉ s) (k : Nat) : '\x0c' ∉ subNl3Go k s := by
  induction s generalizing k with
  | nil => simp [subNl3Go]
  | cons c t ih =>
    simp only [List.mem_cons, not_or] at h
    simp only [subNl3Go]
    split
    · split
      · intro hm
        rcases List.mem_cons.mp hm with he | he
        · cases he
        · exact ih h.2 _ he
      · exact ih h.2 _
    · intro hm
      rcases List.mem_cons.mp hm with he | he
      · exact h.1 he
      · exact ih h.2 _ he

theorem noFF_subWsPunctGo {s : PyStr} (h : '\x0c' ∉ s) :
    ∀ pending : PyStr, '\x0c' ∉ pending → '\x0c' ∉ subWsPunctGo pending s := by
  induction s with
  | nil =>
    intro pending hp
    simpa [subWsPunctGo] using fun hm => hp hm
  | cons c t ih =>
    intro pending hp
    simp only [List.mem_cons, not_or] at h
    simp only [subWsPunctGo]
    split
    · exact ih h.2 _ (by simp only [List.mem_cons, not_or]; exact ⟨fun he => h.1 he, hp⟩)
    · split
      · intro hm
        rcases List.mem_cons.mp hm with he | he
        · exact h.1 he
        · exact ih h.2 [] (by simp) he
      · intro hm
        rcases List.mem_append.mp hm with he | he
        · exact hp (List.mem_reverse.mp he)
        · rcases List.mem_cons.mp he with he2 | he2
          · exact h.1 he2
          · exact ih h.2 [] (by simp) he2

theorem noFF_subPunctWsGo {s : PyStr} (h : '\x0c' ∉ s) (m : PwMode) :
    '\x0c' ∉ subPunctWsGo m s := by
  induction s generalizing m with
  | nil => cases m <;> simp [subPunctWsGo]
  | cons c t ih =>
    simp only [List.mem_cons, not_or] at h
    cases m with
    | norm =>
      simp only [subPunctWsGo]
      split <;>
        (intro hm
         rcases List.mem_cons.mp hm with he | he
         · exact h.1 he
         · exact ih h.2 _ he)
    | sawP =>
      simp only [subPunctWsGo]
      split
      · intro hm
        rcases List.mem_cons.mp hm with he | he
        · exact absurd he (by decide)
        · exact ih h.2 _ he
      · split <;>
          (intro hm
           rcases List.mem_cons.mp hm with he | he
           · exact h.1 he
           · exact ih h.2 _ he)
    | skipW =>
      simp only [subPunctWsGo]
      split
      · exact ih h.2 _
      · split <;>
          (intro hm
           rcases List.mem_cons.mp hm with he | he
           · exact h.1 he
           · exact ih h.2 _ he)

theorem subFormFeed_id {s : PyStr} (h : '\x0c' ∉ s) : subFormFeed s = s := by
  induction s with
  | nil => rfl
  | cons c t ih =>
    simp only [List.mem_cons, not_or] at h
    have hc : (c = '\x0c') = False := by
      simp only [eq_iff_iff, iff_false]
      exact fun he => h.1 he.symm
    simp [subFormFeed, hc, ih h.2]

/-- Claim C7 (amended): for every input text containing no form-feed character,
the normalizer output contains at most two consecutive newline characters.
(Form feeds are excluded because they are rewritten to paragraph breaks only
after the blank-line cap, which is the counterexample.) -/
theorem claim_c7_amended (t : PyStr) (hf : '\x0c' ∉ t) : noTriple (preprocessText t) = true := by
  unfold preprocessText
  have h1 : '\x0c' ∉ subSpaceTab t := noFF_subSpaceTabGo hf false
  have h2 : '\x0c' ∉ subNlSpace (subSpaceTab t) := noFF_subNlSpaceGo h1 false
  have h3 : '\x0c' ∉ subSpaceNl (subNlSpace (subSpaceTab t)) :=
    noFF_subSpaceNlGo h2 [] (by simp)
  have h4 : '\x0c' ∉ subNl3 (subSpaceNl (subNlSpace (subSpaceTab t))) := noFF_subNl3Go h3 0
  have h5 : '\x0c' ∉ subWsPunct (subNl3 (subSpaceNl (subNlSpace (subSpaceTab t)))) :=
    noFF_subWsPunctGo h4 [] (by simp)
  have h6 : '\x0c' ∉ subPunctWs (subWsPunct (subNl3 (subSpaceNl (subNlSpace (subSpaceTab t))))) :=
    noFF_subPunctWsGo h5 .norm
  have hn4 : noTriple (subNl3 (subSpaceNl (subNlSpace (subSpaceTab t)))) = true :=
    subNl3Go_ok _ 0 (by omega)
  have hn5 : noTriple (subWsPunct (subNl3 (subSpaceNl (subNlSpace (subSpaceTab t))))) = true :=
    subWsPunctGo_ok _ [] 0 (by simpa using hn4)
  have hn6 : noTriple (subPunctWs (subWsPunct (subNl3 (subSpaceNl (subNlSpace
      (subSpaceTab t)))))) = true :=
    subPunctWsGo_ok _ 0 .norm hn5 (by intro hx; cases hx)
  show noTriple (strip (subFormFeed (subPunctWs (subWsPunct (subNl3 (subSpaceNl
    (subNlSpace (subSpaceTab t)))))))) = true
  rw [subFormFeed_id h6]
  exact noTriple_strip hn6


/-- Claim C7 witness: a form-feed-free text whose four-newline run is capped,
through the amended claim theorem. -/
theorem claim_c7_witness :
    ('\x0c' ∉ str "a\n\n\n\n\nb") ∧ noTriple (preprocessText (str "a\n\n\n\n\nb")) = true :=
  ⟨by decide, claim_c7_amended (str "a\n\n\n\n\nb") (by decide)⟩

/-- pieces of `pySplitWs` are nonempty and whitespace-free -/
theorem pySplitWs_pieces {s : PyStr} :
    ∀ (acc : PyStr), (∀ ch ∈ acc, pyWs ch = false) →
      ∀ w ∈ pySplitWsGo s acc, w ≠ [] ∧ ∀ ch ∈ w, pyWs ch = false := by
  induction s with
  | nil =>
    intro acc hacc w hw
    simp only [pySplitWsGo] at hw
    split at hw
    · cases hw
    · rename_i hne
      rcases List.mem_singleton.mp hw with rfl
      refine ⟨by simpa using hne, ?_⟩
      intro ch hch
      exact hacc ch (List.mem_reverse.mp hch)
  | cons c t ih =>
    intro acc hacc w hw
    simp only [pySplitWsGo] at hw
    by_cases hc : pyWs c
    · simp only [hc, if_true] at hw
      split at hw
      · exact ih [] (by simp) w hw
      · rename_i hne
        rcases List.mem_cons.mp hw with rfl | hw2
        · refine ⟨by simpa using hne, ?_⟩
          intro ch hch
          exact hacc ch (List.mem_reverse.mp hch)
        · exact ih [] (by simp) w hw2
    · simp only [hc, Bool.false_eq_true, if_false] at hw
      refine ih (c :: acc) ?_ w hw
      intro ch hch
      rcases List.mem_cons.mp hch with rfl | hch2
      · simpa using hc
      · exact hacc ch hch2

/-- a nonempty whitespace-free string splits into itself -/
theorem pySplitWsGo_nows {w : PyStr} (hw : ∀ ch ∈ w, pyWs ch = false) :
    ∀ acc : PyStr, pySplitWsGo w acc =
      if (acc.reverse ++ w).isEmpty then [] else [acc.reverse ++ w] := by
  induction w with
  | nil => intro acc; simp [pySplitWsGo]
  | cons c t ih =>
    intro acc
    have hc : pyWs c = false := hw c (by simp)
    have ht : ∀ ch ∈ t, pyWs ch = false := fun ch hch => hw ch (List.mem_cons_of_mem _ hch)
    simp only [pySplitWsGo, hc, Bool.false_eq_true, if_false]
    rw [ih ht (c :: acc)]
    simp

theorem pySplitWs_single {w : PyStr} (hne : w ≠ []) (hw : ∀ ch ∈ w, pyWs ch = false) :
    pySplitWs w = [w] := by
  unfold pySplitWs
  rw [pySplitWsGo_nows hw []]
  simp [hne]

/-- `pySplitWs` distributes over a space join point -/
theorem pySplitWsGo_append_space (b : PyStr) :
    ∀ (a acc : PyStr), pySplitWsGo (a ++ ' ' :: b) acc = pySplitWsGo a acc ++ pySplitWs b := by
  intro a
  induction a with
  | nil =>
    intro acc
    simp only [List.nil_append, pySplitWsGo, show pyWs ' ' = true from rfl, if_true]
    split <;> simp [pySplitWs]
  | cons c a2 ih =>
    intro acc
    simp only [List.cons_append, pySplitWsGo]
    by_cases hc : pyWs c
    · simp only [hc, if_true]
      split <;> simp [ih]
    · simp only [hc, Bool.false_eq_true, if_false]
      exact ih _

theorem pySplitWs_append_space (a b : PyStr) :
    pySplitWs (a ++ ' ' :: b) = pySplitWs a ++ pySplitWs b :=
  pySplitWsGo_append_space b a []

theorem dropWhile_eq_self_of_nows {s : PyStr} (h : ∀ ch ∈ s, pyWs ch = false) :
    s.dropWhile pyWs = s := by
  cases s with
  | nil => rfl
  | cons c t => simp [List.dropWhile_cons, h c (by simp)]

theorem rstrip_eq_self_of_nows {s : PyStr} (h : ∀ ch ∈ s, pyWs ch = false) :
    rstrip s = s := by
  induction s with
  | nil => rfl
  | cons c t ih =>
    have hc : pyWs c = false := h c (by simp)
    simp only [rstrip, ih (fun ch hch => h ch (List.mem_cons_of_mem _ hch)), hc,
      Bool.and_false, Bool.false_eq_true, if_false]

theorem strip_eq_self_of_nows {s : PyStr} (h : ∀ ch ∈ s, pyWs ch = false) :
    strip s = s := by
  unfold strip lstrip
  rw [dropWhile_eq_self_of_nows h, rstrip_eq_self_of_nows h]

/-- length of the space-join -/
theorem joinWith_cons2 (sep a b : PyStr) (l : List PyStr) :
    joinWith sep (a :: b :: l) = a ++ sep ++ joinWith sep (b :: l) := by
  simp [joinWith, List.intercalate, List.intersperse]

theorem joinWith_single (sep a : PyStr) : joinWith sep [a] = a := by
  simp [joinWith, List.intercalate]

theorem joinWith_snoc (a w : PyStr) (l : List PyStr) :
    joinWith [' '] ((a :: l) ++ [w]) = joinWith [' '] (a :: l) ++ ' ' :: w := by
  induction l generalizing a with
  | nil => simp [joinWith_cons2, joinWith_single]
  | cons b l2 ih =>
    simp only [List.cons_append, joinWith_cons2, List.append_assoc, List.nil_append]
    rw [← List.cons_append, ih b]

/-- the bound every pre-stitch chunk satisfies: within the budget, or containing
a word longer than the budget -/
def WithinBudget (cfg : ChunkerConfig) (c : Chunk) : Prop :=
  c.text.length ≤ cfg.chunk_size ∨ ∃ w ∈ pySplitWs c.text, cfg.chunk_size < w.length

theorem getLastD_irrel {l : PyStr} (hne : l ≠ []) (d e : Char) :
    l.getLastD d = l.getLastD e := by
  cases l with
  | nil => cases hne rfl
  | cons c t => rfl

theorem rstrip_eq_self_of_last {s : PyStr} (h : ∀ d, pyWs (s.getLastD d) = false) :
    rstrip s = s := by
  induction s with
  | nil => rfl
  | cons c t ih =>
    cases t with
    | nil =>
      have hc := h 'x'
      simp only [List.getLastD_cons, List.getLastD_nil] at hc
      simp [rstrip, hc]
    | cons d t2 =>
      have h2 : ∀ e, pyWs ((d :: t2).getLastD e) = false := by
        intro e
        rw [getLastD_irrel (by simp) e c]
        have h4 := h 'x'
        rwa [show (c :: d :: t2).getLastD 'x' = (d :: t2).getLastD c from rfl] at h4
      have h3 : rstrip (d :: t2) = d :: t2 := ih h2
      rw [show rstrip (c :: d :: t2) =
        (if (rstrip (d :: t2)).isEmpty && pyWs c then [] else c :: rstrip (d :: t2)) from rfl, h3]
      simp

theorem strip_eq_self_of_ends {s : PyStr} (hne : s ≠ [])
    (hh : pyWs (s.headD 'x') = false) (hl : ∀ d, pyWs (s.getLastD d) = false) :
    strip s = s := by
  unfold strip lstrip
  have h1 : s.dropWhile pyWs = s := by
    cases s with
    | nil => rfl
    | cons c t => simp only [List.headD_cons] at hh; simp [List.dropWhile_cons, hh]
  rw [h1, rstrip_eq_self_of_last hl]

theorem overflow_flush_within (cfg : ChunkerConfig) (words : List PyStr) (curLen idx off : Nat)
    (hne : words ≠ [])
    (hwf : ∀ w ∈ words, w ≠ [] ∧ ∀ ch ∈ w, pyWs ch = false)
    (hj : (joinWith [' '] words).length + 1 = curLen)
    (hd : curLen ≤ cfg.chunk_size ∨ ∃ w, words = [w] ∧ cfg.chunk_size < w.length + 1) :
    WithinBudget cfg (createChunkData (joinWith [' '] words) idx off (str "overflow")) := by
  rcases hd with hle | ⟨w, rfl, hgt⟩
  · left
    show (strip (joinWith [' '] words)).length ≤ cfg.chunk_size
    have := length_strip_le (joinWith [' '] words)
    omega
  · have hw := hwf w (by simp)
    have hjw : joinWith [' '] [w] = w := joinWith_single _ _
    by_cases hlen : w.length ≤ cfg.chunk_size
    · left
      show (strip (joinWith [' '] [w])).length ≤ cfg.chunk_size
      rw [hjw, strip_eq_self_of_nows hw.2]
      exact hlen
    · right
      show ∃ u ∈ pySplitWs (strip (joinWith [' '] [w])), cfg.chunk_size < u.length
      rw [hjw, strip_eq_self_of_nows hw.2, pySplitWs_single hw.1 hw.2]
      exact ⟨w, by simp, by omega⟩

theorem splitOverflowGo_bound (cfg : ChunkerConfig) :
    ∀ (ws : List PyStr) (st : OvSt),
      (∀ c ∈ st.chunks, WithinBudget cfg c) →
      (∀ w ∈ st.words, w ≠ [] ∧ ∀ ch ∈ w, pyWs ch = false) →
      (∀ w ∈ ws, w ≠ [] ∧ ∀ ch ∈ w, pyWs ch = false) →
      (st.words = [] → st.curLen = 0) →
      (st.words ≠ [] → (joinWith [' '] st.words).length + 1 = st.curLen ∧
        (st.curLen ≤ cfg.chunk_size ∨ ∃ w, st.words = [w] ∧ cfg.chunk_size < w.length + 1)) →
      ∀ c ∈ splitOverflowGo cfg ws st, WithinBudget cfg c := by
  intro ws
  induction ws with
  | nil =>
    intro st hch hwst _ _ hinv c hc
    simp only [splitOverflowGo] at hc
    split at hc
    · rename_i hne
      rcases List.mem_append.mp hc with h | h
      · exact hch c h
      · rcases List.mem_singleton.mp h with rfl
        have hne2 : st.words ≠ [] := by simpa using hne
        obtain ⟨hj, hd⟩ := hinv hne2
        exact overflow_flush_within cfg st.words st.curLen st.idx st.off hne2 hwst hj hd
    · exact hch c hc
  | cons w ws2 ih =>
    intro st hch hwst hws hz hinv c hc
    obtain ⟨stc, stw, stl, sti, sto⟩ := st
    simp only at hch hwst hz hinv hc
    have hw0 := hws w (by simp)
    have hws2 : ∀ u ∈ ws2, u ≠ [] ∧ ∀ ch ∈ u, pyWs ch = false :=
      fun u hu => hws u (List.mem_cons_of_mem _ hu)
    simp only [splitOverflowGo] at hc
    split at hc
    · rename_i hfit
      refine ih _ ?_ ?_ hws2 ?_ ?_ c hc
      · exact hch
      · intro u hu
        rcases List.mem_append.mp hu with h | h
        · exact hwst u h
        · rcases List.mem_singleton.mp h with rfl
          exact hw0
      · simp
      · intro _
        constructor
        · show (joinWith [' '] (stw ++ [w])).length + 1 = stl + (w.length + 1)
          cases stw with
          | nil =>
            have hcl := hz rfl
            simp [joinWith_single, hcl]
          | cons a l =>
            have hj := (hinv (by simp)).1
            rw [joinWith_snoc]
            simp only [List.length_append, List.length_cons] at hj ⊢
            omega
        · left
          simpa using hfit
    · rename_i hnofit
      refine ih _ ?_ ?_ hws2 ?_ ?_ c hc
      · intro u hu
        split at hu
        · rename_i hne
          rcases List.mem_append.mp hu with h | h
          · exact hch u h
          · rcases List.mem_singleton.mp h with rfl
            have hne2 : stw ≠ [] := by simpa using hne
            obtain ⟨hj, hd⟩ := hinv hne2
            exact overflow_flush_within cfg stw stl sti sto hne2 hwst hj hd
        · exact hch u hu
      · intro u hu
        split at hu <;>
          (rcases List.mem_singleton.mp hu with rfl; exact hw0)
      · split <;> simp
      · intro _
        split <;>
          (refine ⟨by simp [joinWith_single], ?_⟩
           by_cases hlen : w.length + 1 ≤ cfg.chunk_size
           · left; simpa using hlen
           · right; exact ⟨w, rfl, by omega⟩)

theorem pack_flush_within (cfg : ChunkerConfig) (current : PyStr) (idx off : Nat) (kind : PyStr)
    (hcur : current.length ≤ cfg.chunk_size) :
    WithinBudget cfg (createChunkData current idx off kind) := by
  left
  show (strip current).length ≤ cfg.chunk_size
  have := length_strip_le current
  omega

theorem splitOverflowText_bound (cfg : ChunkerConfig) (s : PyStr) (idx off : Nat) :
    ∀ c ∈ splitOverflowText cfg s idx off, WithinBudget cfg c := by
  intro c hc
  refine splitOverflowGo_bound cfg (pySplitWs s) ⟨[], [], 0, idx, off⟩ (by simp) (by simp)
    ?_ (fun _ => rfl) (by simp) c hc
  intro w hw
  exact pySplitWs_pieces [] (by simp) w hw

theorem splitSentGo_bound (cfg : ChunkerConfig) (n : Nat) :
    ∀ (pieces : List (Nat × PyStr)) (st : PackSt),
      (∀ c ∈ st.chunks, WithinBudget cfg c) →
      st.current.length ≤ cfg.chunk_size →
      ∀ c ∈ splitSentGo cfg n pieces st, WithinBudget cfg c := by
  intro pieces
  induction pieces with
  | nil =>
    intro st hch hcur c hc
    simp only [splitSentGo] at hc
    split at hc
    · rcases List.mem_append.mp hc with h | h
      · exact hch c h
      · rcases List.mem_singleton.mp h with rfl
        exact pack_flush_within cfg st.current st.idx st.off _ hcur
    · exact hch c hc
  | cons p rest ih =>
    obtain ⟨i, sent⟩ := p
    intro st hch hcur c hc
    simp only [splitSentGo] at hc
    by_cases h1 : (strip sent).isEmpty = true
    · rw [if_pos h1] at hc
      exact ih st hch hcur c hc
    · rw [if_neg h1] at hc
      generalize (if i < n - 1 then strip sent ++ str ". " else strip sent) = s at hc
      have hflush : ∀ u ∈ (if !st.current.isEmpty then
          ({ chunks := st.chunks ++
               [createChunkData st.current st.idx st.off (str "sentence_group")],
             current := st.current, idx := st.idx + 1,
             off := st.off + st.current.length } : PackSt)
          else st).chunks, WithinBudget cfg u := by
        intro u hu
        split at hu
        · rcases List.mem_append.mp hu with h2 | h2
          · exact hch u h2
          · rcases List.mem_singleton.mp h2 with rfl
            exact pack_flush_within cfg st.current st.idx st.off _ hcur
        · exact hch u hu
      by_cases h2 : st.current.length + s.length ≤ cfg.chunk_size
      · rw [if_pos h2] at hc
        refine ih _ ?_ ?_ c hc
        · exact hch
        · show (st.current ++ s).length ≤ cfg.chunk_size
          simp only [List.length_append]
          omega
      · rw [if_neg h2] at hc
        by_cases h3 : cfg.chunk_size < s.length
        · rw [if_pos h3] at hc
          refine ih _ ?_ ?_ c hc
          · intro u hu
            rcases List.mem_append.mp hu with h4 | h4
            · exact hflush u h4
            · exact splitOverflowText_bound cfg _ _ _ u h4
          · show ([] : PyStr).length ≤ cfg.chunk_size
            simp
        · rw [if_neg h3] at hc
          refine ih _ ?_ ?_ c hc
          · exact hflush
          · show s.length ≤ cfg.chunk_size
            omega

theorem splitBySentences_bound (cfg : ChunkerConfig) (text : PyStr) (idx off : Nat) :
    ∀ c ∈ splitBySentences cfg text idx off, WithinBudget cfg c := by
  intro c hc
  exact splitSentGo_bound cfg _ _ ⟨[], [], idx, off⟩ (by simp) (by simp) c hc

theorem chunkGenericGo_bound (cfg : ChunkerConfig) :
    ∀ (pieces : List PyStr) (st : PackSt),
      (∀ c ∈ st.chunks, WithinBudget cfg c) →
      st.current.length ≤ cfg.chunk_size →
      ∀ c ∈ chunkGenericGo cfg pieces st, WithinBudget cfg c := by
  intro pieces
  induction pieces with
  | nil =>
    intro st hch hcur c hc
    simp only [chunkGenericGo] at hc
    split at hc
    · rcases List.mem_append.mp hc with h | h
      · exact hch c h
      · rcases List.mem_singleton.mp h with rfl
        exact pack_flush_within cfg st.current st.idx st.off _ hcur
    · exact hch c hc
  | cons p rest ih =>
    intro st hch hcur c hc
    simp only [chunkGenericGo] at hc
    by_cases h1 : ((strip p).isEmpty || decide ((strip p).length < cfg.min_chunk_length)) = true
    · rw [if_pos h1] at hc
      exact ih st hch hcur c hc
    · rw [if_neg h1] at hc
      have hflush : ∀ u ∈ (if !st.current.isEmpty then
          ({ chunks := st.chunks ++
               [createChunkData st.current st.idx st.off (str "paragraph")],
             current := st.current, idx := st.idx + 1,
             off := st.off + st.current.length } : PackSt)
          else st).chunks, WithinBudget cfg u := by
        intro u hu
        split at hu
        · rcases List.mem_append.mp hu with h2 | h2
          · exact hch u h2
          · rcases List.mem_singleton.mp h2 with rfl
            exact pack_flush_within cfg st.current st.idx st.off _ hcur
        · exact hch u hu
      by_cases h2 : st.current.length + (strip p).length + 2 ≤ cfg.chunk_size
      · rw [if_pos h2] at hc
        refine ih _ ?_ ?_ c hc
        · exact hch
        · show (if !st.current.isEmpty then st.current ++ str "\n\n" ++ strip p
              else strip p).length ≤ cfg.chunk_size
          split
          · have h22 : (str "\n\n").length = 2 := rfl
            simp only [List.length_append, h22]
            omega
          · omega
      · rw [if_neg h2] at hc
        by_cases h3 : cfg.chunk_size < (strip p).length
        · rw [if_pos h3] at hc
          refine ih _ ?_ ?_ c hc
          · intro u hu
            rcases List.mem_append.mp hu with h4 | h4
            · exact hflush u h4
            · exact splitBySentences_bound cfg _ _ _ u h4
          · show ([] : PyStr).length ≤ cfg.chunk_size
            simp
        · rw [if_neg h3] at hc
          refine ih _ ?_ ?_ c hc
          · exact hflush
          · show (strip p).length ≤ cfg.chunk_size
            omega

theorem chunkGenericText_bound (cfg : ChunkerConfig) (text : PyStr) :
    ∀ c ∈ chunkGenericText cfg text, WithinBudget cfg c := by
  intro c hc
  exact chunkGenericGo_bound cfg _ ⟨[], [], 0, 0⟩ (by simp) (by simp) c hc

theorem sentenceSplitGo_piece_le :
    ∀ (s acc pendingP : PyStr) (skip : Bool),
      ∀ p ∈ sentenceSplitGo acc pendingP skip s,
        p.length ≤ acc.length + pendingP.length + s.length := by
  intro s
  induction s with
  | nil =>
    intro acc pendingP skip p hp
    rcases List.mem_singleton.mp hp with rfl
    simp
  | cons c t ih =>
    intro acc pendingP skip p hp
    simp only [sentenceSplitGo] at hp
    by_cases hskip : skip = true
    · rw [if_pos hskip] at hp
      by_cases hw : pyWs c = true
      · rw [if_pos hw] at hp
        have h1 := ih [] [] true p hp
        simp only [List.length_nil, List.length_cons] at h1 ⊢
        omega
      · rw [if_neg hw] at hp
        by_cases hsp : sentPunct c = true
        · rw [if_pos hsp] at hp
          have h1 := ih [] [c] false p hp
          simp only [List.length_nil, List.length_cons] at h1 ⊢
          omega
        · rw [if_neg hsp] at hp
          have h1 := ih [c] [] false p hp
          simp only [List.length_nil, List.length_cons] at h1 ⊢
          omega
    · rw [if_neg hskip] at hp
      by_cases hpe : pendingP.isEmpty = true
      · rw [if_pos hpe] at hp
        have hpl : pendingP.length = 0 := by
          cases pendingP
          · rfl
          · simp [List.isEmpty] at hpe
        by_cases hsp : sentPunct c = true
        · rw [if_pos hsp] at hp
          have h1 := ih acc [c] false p hp
          simp only [List.length_nil, List.length_cons] at h1 ⊢
          omega
        · rw [if_neg hsp] at hp
          have h1 := ih (c :: acc) [] false p hp
          simp only [List.length_nil, List.length_cons] at h1 ⊢
          omega
      · rw [if_neg hpe] at hp
        by_cases hsp : sentPunct c = true
        · rw [if_pos hsp] at hp
          have h1 := ih acc (c :: pendingP) false p hp
          simp only [List.length_cons] at h1 ⊢
          omega
        · rw [if_neg hsp] at hp
          by_cases hw : pyWs c = true
          · rw [if_pos hw] at hp
            rcases List.mem_cons.mp hp with rfl | hp2
            · simp only [List.length_cons, List.length_reverse]
              omega
            · have h1 := ih [] [] true p hp2
              simp only [List.length_nil, List.length_cons] at h1 ⊢
              omega
          · rw [if_neg hw] at hp
            have h1 := ih (c :: (pendingP ++ acc)) [] false p hp
            simp only [List.length_nil, List.length_cons, List.length_append] at h1 ⊢
            omega

theorem sentenceSplit_piece_le {s : PyStr} : ∀ p ∈ sentenceSplit s, p.length ≤ s.length := by
  intro p hp
  have h1 := sentenceSplitGo_piece_le s [] [] false p hp
  simpa using h1

theorem sentenceSplitGo_ne_nil (s : PyStr) :
    ∀ (acc pendingP : PyStr) (skip : Bool), sentenceSplitGo acc pendingP skip s ≠ [] := by
  induction s with
  | nil => intro acc pendingP skip; simp [sentenceSplitGo]
  | cons c t ih =>
    intro acc pendingP skip
    simp only [sentenceSplitGo]
    by_cases hskip : skip = true
    · rw [if_pos hskip]
      by_cases hw : pyWs c = true
      · rw [if_pos hw]; exact ih [] [] true
      · rw [if_neg hw]
        by_cases hsp : sentPunct c = true
        · rw [if_pos hsp]; exact ih [] [c] false
        · rw [if_neg hsp]; exact ih [c] [] false
    · rw [if_neg hskip]
      by_cases hpe : pendingP.isEmpty = true
      · rw [if_pos hpe]
        by_cases hsp : sentPunct c = true
        · rw [if_pos hsp]; exact ih acc [c] false
        · rw [if_neg hsp]; exact ih (c :: acc) [] false
      · rw [if_neg hpe]
        by_cases hsp : sentPunct c = true
        · rw [if_pos hsp]; exact ih acc (c :: pendingP) false
        · rw [if_neg hsp]
          by_cases hw : pyWs c = true
          · rw [if_pos hw]; simp
          · rw [if_neg hw]; exact ih (c :: (pendingP ++ acc)) [] false

theorem getLastD_mem {l : List PyStr} (hne : l ≠ []) (d : PyStr) : l.getLastD d ∈ l := by
  induction l with
  | nil => cases hne rfl
  | cons a t ih =>
    cases t with
    | nil => simp [List.getLastD]
    | cons b t2 =>
      have h2 := ih (by simp) 
      rw [show (a :: b :: t2).getLastD d = (b :: t2).getLastD a from rfl]
      exact List.mem_cons_of_mem _ (h2)

/-- the space-join of the split words is no longer than the original string -/
theorem joinWith_pySplitWsGo_le :
    ∀ (s acc : PyStr), (joinWith [' '] (pySplitWsGo s acc)).length ≤ acc.length + s.length := by
  intro s
  induction s with
  | nil =>
    intro acc
    simp only [pySplitWsGo]
    split
    · simp [joinWith, List.intercalate]
    · simp [joinWith_single]
  | cons c t ih =>
    intro acc
    simp only [pySplitWsGo]
    by_cases hc : pyWs c
    · simp only [hc, if_true]
      split
      · have := ih []
        simp only [List.length_nil, List.length_cons] at this ⊢
        omega
      · rename_i hne
        cases hq : pySplitWsGo t [] with
        | nil =>
          rw [joinWith_single]
          simp only [List.length_cons, List.length_reverse]
          omega
        | cons w rest =>
          have := ih []
          rw [hq] at this
          simp only [hq, joinWith_cons2]
          simp only [List.length_nil, List.length_cons, List.length_append,
            List.length_reverse] at this ⊢
          omega
    · simp only [hc, Bool.false_eq_true, if_false]
      have := ih (c :: acc)
      simp only [List.length_cons] at this ⊢
      omega

theorem joinWith_pySplitWs_le (s : PyStr) :
    (joinWith [' '] (pySplitWs s)).length ≤ s.length := by
  have := joinWith_pySplitWsGo_le s []
  simpa using this

/-- dropping leading words only shortens the join -/
theorem joinWith_drop_le (l : List PyStr) (k : Nat) :
    (joinWith [' '] (l.drop k)).length ≤ (joinWith [' '] l).length := by
  induction l generalizing k with
  | nil => simp
  | cons a t ih =>
    cases k with
    | zero => simp
    | succ k2 =>
      simp only [List.drop_succ_cons]
      refine le_trans (ih k2) ?_
      cases t with
      | nil => simp [joinWith, List.intercalate]
      | cons b t2 =>
        rw [joinWith_cons2]
        simp only [List.length_append, List.length_cons, List.length_nil]
        omega

theorem findGoodOverlap_le (t : PyStr) : (findGoodOverlap t).length ≤ t.length := by
  simp only [findGoodOverlap]
  by_cases h1 : t.length < 20
  · rw [if_pos h1]; simp
  · rw [if_neg h1]
    by_cases h2 : 1 < (sentenceSplit t).length
    · rw [if_pos h2]
      have hne := sentenceSplitGo_ne_nil t [] [] false
      have hmem : (sentenceSplit t).getLastD [] ∈ sentenceSplit t := getLastD_mem hne []
      have h3 := sentenceSplit_piece_le _ hmem
      have h4 := length_strip_le ((sentenceSplit t).getLastD [])
      omega
    · rw [if_neg h2]
      by_cases h5 : 5 < (pySplitWs t).length
      · rw [if_pos h5]
        have h6 := joinWith_drop_le (pySplitWs t) ((pySplitWs t).length - 5)
        have h7 := joinWith_pySplitWs_le t
        omega
      · rw [if_neg h5]

/-- what every final unit satisfies: within budget plus one overlap fragment and
one joining space, or containing an overlong unsplittable word -/
def FinalBudget (cfg : ChunkerConfig) (c : Chunk) : Prop :=
  c.text.length ≤ cfg.chunk_size + cfg.chunk_overlap + 1 ∨
  ∃ w ∈ pySplitWs c.text, cfg.chunk_size < w.length

theorem fragment_le (cfg : ChunkerConfig) (prev : PyStr) :
    (findGoodOverlap (strip (takeLast cfg.chunk_overlap prev))).length ≤ cfg.chunk_overlap := by
  have h1 := findGoodOverlap_le (strip (takeLast cfg.chunk_overlap prev))
  have h2 := length_strip_le (takeLast cfg.chunk_overlap prev)
  have h3 := length_takeLast_le cfg.chunk_overlap prev
  omega

theorem stitchOne_final (cfg : ChunkerConfig) (prev : Option Chunk) (c : Chunk)
    (hc : WithinBudget cfg c) : FinalBudget cfg (stitchOne cfg prev c) := by
  cases prev with
  | none =>
    rcases hc with h | h
    · left
      show c.text.length ≤ cfg.chunk_size + cfg.chunk_overlap + 1
      omega
    · right
      exact h
  | some p =>
    simp only [stitchOne]
    split
    · rename_i hne
      rcases hc with h | h
      · left
        simp only [List.length_append, List.length_cons]
        have h2 := fragment_le cfg p.text
        omega
      · right
        obtain ⟨w, hw, hlen⟩ := h
        refine ⟨w, ?_, hlen⟩
        rw [pySplitWs_append_space]
        exact List.mem_append_right _ hw
    · rcases hc with h | h
      · left
        show c.text.length ≤ cfg.chunk_size + cfg.chunk_overlap + 1
        omega
      · right
        exact h

theorem stitchGo_shape (cfg : ChunkerConfig) :
    ∀ (l : List Chunk) (p : Chunk), ∀ c2 ∈ stitchGo cfg p l,
      ∃ c ∈ l, ∃ q, c2 = stitchOne cfg (some q) c := by
  intro l
  induction l with
  | nil => intro p c2 hc2; cases hc2
  | cons a rest ih =>
    intro p c2 hc2
    rcases List.mem_cons.mp hc2 with rfl | h2
    · exact ⟨a, by simp, p, rfl⟩
    · obtain ⟨c, hc, q, rfl⟩ := ih a c2 h2
      exact ⟨c, List.mem_cons_of_mem _ hc, q, rfl⟩

theorem stitchChunks_shape (cfg : ChunkerConfig) (l : List Chunk) :
    ∀ c2 ∈ stitchChunks cfg l,
      ∃ c ∈ l, c2 = stitchOne cfg none c ∨ ∃ q, c2 = stitchOne cfg (some q) c := by
  intro c2 hc2
  cases l with
  | nil => cases hc2
  | cons a rest =>
    rcases List.mem_cons.mp hc2 with rfl | h2
    · exact ⟨a, by simp, Or.inl rfl⟩
    · obtain ⟨c, hc, q, rfl⟩ := stitchGo_shape cfg rest a c2 h2
      exact ⟨c, List.mem_cons_of_mem _ hc, Or.inr ⟨q, rfl⟩⟩

theorem addOverlapAndValidate_final (cfg : ChunkerConfig) (l : List Chunk) (orig : PyStr)
    (hl : ∀ c ∈ l, WithinBudget cfg c) :
    ∀ c ∈ addOverlapAndValidate cfg l orig, FinalBudget cfg c := by
  intro c hc
  unfold addOverlapAndValidate at hc
  split at hc
  · have hmem := List.mem_filter.mp hc
    have hb := hl c hmem.1
    exact stitchOne_final cfg none c hb
  · have hmem := List.mem_filter.mp hc
    obtain ⟨c0, hc0, hshape⟩ := stitchChunks_shape cfg l c hmem.1
    rcases hshape with rfl | ⟨q, rfl⟩
    · exact stitchOne_final cfg none c0 (hl c0 hc0)
    · exact stitchOne_final cfg (some q) c0 (hl c0 hc0)

theorem chunkText_eq (cfg : ChunkerConfig) (text document_type : PyStr) :
    chunkText cfg text document_type =
      addOverlapAndValidate cfg (chunkGenericText cfg (preprocessText text))
        (preprocessText text) := by
  unfold chunkText chunkPdfStyle chunkStructuredDocument
  split
  · rfl
  · split
    · rfl
    · rfl

/-- Claim C2 (amended): every unit emitted by the chunking pipeline is at most
`chunk_size + chunk_overlap + 1` characters long (budget, plus one overlap
fragment of at most `chunk_overlap` characters, plus the joining space) unless
the unit contains a single unsplittable word longer than the budget. -/
theorem claim_c2_amended (cfg : ChunkerConfig) (text document_type : PyStr) :
    ∀ c ∈ chunkText cfg text document_type,
      c.text.length ≤ cfg.chunk_size + cfg.chunk_overlap + 1 ∨
      ∃ w ∈ pySplitWs c.text, cfg.chunk_size < w.length := by
  intro c hc
  rw [chunkText_eq] at hc
  exact addOverlapAndValidate_final cfg _ _
    (chunkGenericText_bound cfg (preprocessText text)) c hc

/-- Claim C2 witness: in the counterexample configuration the 56-character
second unit meets the amended bound `30 + 25 + 1` with equality. -/
theorem claim_c2_witness :
    ∃ c ∈ chunkText ⟨30, 25, 10⟩ c2text (str "generic"),
      c.text.length = 56 ∧
      (c.text.length ≤ 30 + 25 + 1 ∨ ∃ w ∈ pySplitWs c.text, 30 < w.length) := by
  have hbig : ∃ c ∈ chunkText ⟨30, 25, 10⟩ c2text (str "generic"), c.text.length = 56 := by
    set_option maxRecDepth 1000000 in decide
  obtain ⟨c, hc, hlen⟩ := hbig
  exact ⟨c, hc, hlen, claim_c2_amended ⟨30, 25, 10⟩ c2text (str "generic") c hc⟩



/-- `q` occurs as a contiguous segment of `s` -/
def SubSeg (q s : PyStr) : Prop := ∃ a b, s = a ++ q ++ b

theorem SubSeg_refl (q : PyStr) : SubSeg q q := ⟨[], [], by simp⟩

theorem SubSeg_length {q s : PyStr} (h : SubSeg q s) : q.length ≤ s.length := by
  obtain ⟨a, b, rfl⟩ := h
  simp only [List.length_append]
  omega

theorem SubSeg_ne_nil {q s : PyStr} (h : SubSeg q s) (hq : q ≠ []) : s ≠ [] := by
  obtain ⟨a, b, rfl⟩ := h
  intro h2
  apply hq
  have hl := congrArg List.length h2
  simp only [List.length_append, List.length_nil] at hl
  exact List.eq_nil_of_length_eq_zero (by omega)

theorem SubSeg_filter {q s : PyStr} (p : Char → Bool) (h : SubSeg q s) :
    (q.filter p).length ≤ (s.filter p).length := by
  obtain ⟨a, b, rfl⟩ := h
  simp only [List.filter_append, List.length_append]
  omega

theorem SubSeg_append_left {q s : PyStr} (x : PyStr) (h : SubSeg q s) : SubSeg q (x ++ s) := by
  obtain ⟨a, b, rfl⟩ := h
  exact ⟨x ++ a, b, by simp⟩

theorem SubSeg_append_right {q s : PyStr} (x : PyStr) (h : SubSeg q s) : SubSeg q (s ++ x) := by
  obtain ⟨a, b, rfl⟩ := h
  exact ⟨a, b ++ x, by simp⟩

theorem SubSeg_cons {q s : PyStr} (c : Char) (h : SubSeg q s) : SubSeg q (c :: s) :=
  SubSeg_append_left [c] h


theorem headD_lstrip {s : PyStr} (h : lstrip s ≠ []) : pyWs ((lstrip s).headD 'x') = false := by
  unfold lstrip at *
  induction s with
  | nil => cases h rfl
  | cons c t ih =>
    by_cases hc : pyWs c
    · rw [List.dropWhile_cons_of_pos hc] at h ⊢
      exact ih h
    · rw [List.dropWhile_cons_of_neg hc] at h ⊢
      simpa using hc

theorem rstrip_cons (c : Char) (t : PyStr) :
    rstrip (c :: t) = if (rstrip t).isEmpty && pyWs c then [] else c :: rstrip t := rfl

theorem rstrip_head {s : PyStr} (h : rstrip s ≠ []) (d : Char) :
    (rstrip s).headD d = s.headD d := by
  cases s with
  | nil => cases h rfl
  | cons c t =>
    rw [rstrip_cons] at h ⊢
    by_cases hcond : ((rstrip t).isEmpty && pyWs c) = true
    · rw [if_pos hcond] at h; cases h rfl
    · rw [if_neg hcond]; simp

theorem rstrip_last {s : PyStr} (h : rstrip s ≠ []) :
    ∀ d, pyWs ((rstrip s).getLastD d) = false := by
  induction s with
  | nil => cases h rfl
  | cons c t ih =>
    rw [rstrip_cons] at h ⊢
    by_cases hcond : ((rstrip t).isEmpty && pyWs c) = true
    · rw [if_pos hcond] at h; cases h rfl
    · rw [if_neg hcond] at h ⊢
      intro d
      have hcf : ((rstrip t).isEmpty && pyWs c) = false := by simpa using hcond
      by_cases hrt : rstrip t = []
      · have hc : pyWs c = false := by
          rcases Bool.and_eq_false_iff.mp hcf with h1 | h1
          · exfalso; rw [hrt] at h1; simp at h1
          · exact h1
        rw [hrt]
        show pyWs c = false
        exact hc
      · cases hrt2 : rstrip t with
        | nil => cases hrt hrt2
        | cons e u =>
          show pyWs ((e :: u).getLastD c) = false
          rw [@getLastD_irrel (e :: u) (by simp) c d, ← hrt2]
          exact ih hrt d

/-- the head and last characters of a nonempty `strip` result are never
whitespace -/
theorem strip_head {s : PyStr} (h : strip s ≠ []) : pyWs ((strip s).headD 'x') = false := by
  unfold strip at *
  rw [rstrip_head h 'x']
  apply headD_lstrip
  intro h2
  rw [h2] at h
  exact h rfl

theorem strip_last {s : PyStr} (h : strip s ≠ []) : ∀ d, pyWs ((strip s).getLastD d) = false :=
  rstrip_last h

theorem dropWhile_append_nonempty {a x : PyStr} (h : a.dropWhile pyWs ≠ []) :
    (a ++ x).dropWhile pyWs = a.dropWhile pyWs ++ x := by
  induction a with
  | nil => cases h rfl
  | cons c t ih =>
    by_cases hc : pyWs c
    · rw [List.dropWhile_cons_of_pos hc] at h
      rw [List.cons_append, List.dropWhile_cons_of_pos hc, ih h,
        List.dropWhile_cons_of_pos hc]
    · rw [List.cons_append, List.dropWhile_cons_of_neg hc, List.dropWhile_cons_of_neg hc]
      rfl

theorem dropWhile_append_empty {a x : PyStr} (h : a.dropWhile pyWs = []) :
    (a ++ x).dropWhile pyWs = x.dropWhile pyWs := by
  induction a with
  | nil => simp
  | cons c t ih =>
    by_cases hc : pyWs c
    · rw [List.dropWhile_cons_of_pos hc] at h
      rw [List.cons_append, List.dropWhile_cons_of_pos hc, ih h]
    · rw [List.dropWhile_cons_of_neg hc] at h
      cases h

theorem rstrip_append_empty {x b : PyStr} (h : rstrip b = []) : rstrip (x ++ b) = rstrip x := by
  induction x with
  | nil => simpa using h
  | cons c t ih =>
    rw [List.cons_append,
      show rstrip (c :: (t ++ b)) =
        (if (rstrip (t ++ b)).isEmpty && pyWs c then [] else c :: rstrip (t ++ b)) from rfl,
      ih,
      show rstrip (c :: t) = (if (rstrip t).isEmpty && pyWs c then [] else c :: rstrip t) from rfl]

theorem rstrip_append_nonempty {x b : PyStr} (h : rstrip b ≠ []) :
    rstrip (x ++ b) = x ++ rstrip b := by
  induction x with
  | nil => rfl
  | cons c t ih =>
    rw [List.cons_append,
      show rstrip (c :: (t ++ b)) =
        (if (rstrip (t ++ b)).isEmpty && pyWs c then [] else c :: rstrip (t ++ b)) from rfl,
      ih]
    have hne2 : t ++ rstrip b ≠ [] := by
      intro hh
      exact h (List.append_eq_nil.mp hh).2
    have hne : (t ++ rstrip b).isEmpty = false := by
      cases hq : (t ++ rstrip b).isEmpty
      · rfl
      · exact absurd (List.isEmpty_iff.mp hq) hne2
    rw [hne]
    simp

/-- a whitespace-clean nonempty segment of `s` survives `strip`ping of `s` -/
theorem strip_SubSeg {q s : PyStr} (h : SubSeg q s) (hne : q ≠ [])
    (hh : pyWs (q.headD 'x') = false) (hl : ∀ d, pyWs (q.getLastD d) = false) :
    SubSeg q (strip s) := by
  obtain ⟨a, b, rfl⟩ := h
  have hqd : q.dropWhile pyWs = q := by
    cases q with
    | nil => rfl
    | cons c t =>
      simp only [List.headD_cons] at hh
      exact List.dropWhile_cons_of_neg (by simp [hh])
  have hqr : rstrip q = q := rstrip_eq_self_of_last hl
  unfold strip lstrip
  have hqdne : q.dropWhile pyWs ≠ [] := by rw [hqd]; exact hne
  have hqrne : rstrip q ≠ [] := by rw [hqr]; exact hne
  have hstep1 : (a ++ q ++ b).dropWhile pyWs = a.dropWhile pyWs ++ q ++ b ∨
      (a ++ q ++ b).dropWhile pyWs = q ++ b := by
    by_cases ha : a.dropWhile pyWs = []
    · right
      rw [List.append_assoc, dropWhile_append_empty ha, dropWhile_append_nonempty hqdne, hqd]
    · left
      rw [List.append_assoc, dropWhile_append_nonempty ha, List.append_assoc]
  rcases hstep1 with he | he <;> rw [he]
  · by_cases hb : rstrip b = []
    · rw [rstrip_append_empty hb, rstrip_append_nonempty hqrne, hqr]
      exact ⟨a.dropWhile pyWs, [], by simp⟩
    · rw [rstrip_append_nonempty hb]
      exact ⟨a.dropWhile pyWs, rstrip b, by simp⟩
  · by_cases hb : rstrip b = []
    · rw [show q ++ b = ([] ++ q) ++ b from by simp, rstrip_append_empty hb,
        rstrip_append_nonempty hqrne, hqr]
      exact ⟨[], [], by simp⟩
    · rw [rstrip_append_nonempty hb]
      exact ⟨[], rstrip b, rfl⟩


theorem chunkGenericGo_keep (cfg : ChunkerConfig) (q : PyStr) (hne : q ≠ [])
    (hh : pyWs (q.headD 'x') = false) (hl : ∀ d, pyWs (q.getLastD d) = false) :
    ∀ (pieces : List PyStr) (st : PackSt),
      ((∃ c ∈ st.chunks, SubSeg q c.text) ∨ SubSeg q st.current) →
      ∃ c ∈ chunkGenericGo cfg pieces st, SubSeg q c.text := by
  intro pieces
  induction pieces with
  | nil =>
    intro st hinv
    simp only [chunkGenericGo]
    rcases hinv with ⟨c, hc, hsub⟩ | hsub
    · split
      · exact ⟨c, List.mem_append_left _ hc, hsub⟩
      · exact ⟨c, hc, hsub⟩
    · have hcur_ne : st.current ≠ [] := SubSeg_ne_nil hsub hne
      rw [if_pos (by simpa [List.isEmpty_iff] using hcur_ne)]
      refine ⟨createChunkData st.current st.idx st.off (str "paragraph"),
        List.mem_append_right _ (by simp), ?_⟩
      exact strip_SubSeg hsub hne hh hl
  | cons p rest ih =>
    intro st hinv
    simp only [chunkGenericGo]
    by_cases h1 : ((strip p).isEmpty || decide ((strip p).length < cfg.min_chunk_length)) = true
    · rw [if_pos h1]
      exact ih st hinv
    · rw [if_neg h1]
      by_cases h2 : st.current.length + (strip p).length + 2 ≤ cfg.chunk_size
      · rw [if_pos h2]
        apply ih
        rcases hinv with hleft | hsub
        · left
          exact hleft
        · right
          have hcur_ne : st.current ≠ [] := SubSeg_ne_nil hsub hne
          show SubSeg q (if !st.current.isEmpty then st.current ++ str "\n\n" ++ strip p
            else strip p)
          rw [if_pos (by simpa [List.isEmpty_iff] using hcur_ne)]
          exact SubSeg_append_right _ (SubSeg_append_right _ hsub)
      · rw [if_neg h2]
        have hfl : ∃ c ∈ (if !st.current.isEmpty then
            ({ chunks := st.chunks ++
                 [createChunkData st.current st.idx st.off (str "paragraph")],
               current := st.current, idx := st.idx + 1,
               off := st.off + st.current.length } : PackSt)
            else st).chunks, SubSeg q c.text := by
          rcases hinv with ⟨c, hc, hsub⟩ | hsub
          · split
            · exact ⟨c, List.mem_append_left _ hc, hsub⟩
            · exact ⟨c, hc, hsub⟩
          · have hcur_ne : st.current ≠ [] := SubSeg_ne_nil hsub hne
            rw [if_pos (by simpa [List.isEmpty_iff] using hcur_ne)]
            exact ⟨createChunkData st.current st.idx st.off (str "paragraph"),
              List.mem_append_right _ (by simp), strip_SubSeg hsub hne hh hl⟩
        by_cases h3 : cfg.chunk_size < (strip p).length
        · rw [if_pos h3]
          apply ih
          left
          obtain ⟨c, hc, hsub⟩ := hfl
          exact ⟨c, List.mem_append_left _ hc, hsub⟩
        · rw [if_neg h3]
          apply ih
          left
          exact hfl

theorem chunkGenericGo_hits (cfg : ChunkerConfig) (q p0 : PyStr) (hq : strip p0 = q)
    (hne : q ≠ []) (hh : pyWs (q.headD 'x') = false)
    (hl : ∀ d, pyWs (q.getLastD d) = false)
    (hmin : cfg.min_chunk_length ≤ q.length) (hmax : q.length ≤ cfg.chunk_size) :
    ∀ (pieces : List PyStr) (st : PackSt), p0 ∈ pieces →
      ∃ c ∈ chunkGenericGo cfg pieces st, SubSeg q c.text := by
  intro pieces
  induction pieces with
  | nil => intro st hmem; cases hmem
  | cons p rest ih =>
    intro st hmem
    rcases List.mem_cons.mp hmem with rfl | hmem2
    · simp only [chunkGenericGo, hq]
      have h1 : (q.isEmpty || decide (q.length < cfg.min_chunk_length)) = false := by
        simp only [Bool.or_eq_false_iff]
        constructor
        · simpa [List.isEmpty_iff] using hne
        · simpa using (by omega : ¬ q.length < cfg.min_chunk_length)
      rw [if_neg (by simp [h1])]
      by_cases h2 : st.current.length + q.length + 2 ≤ cfg.chunk_size
      · rw [if_pos h2]
        apply chunkGenericGo_keep cfg q hne hh hl
        right
        show SubSeg q (if !st.current.isEmpty then st.current ++ str "\n\n" ++ q else q)
        split
        · exact ⟨st.current ++ str "\n\n", [], by simp⟩
        · exact SubSeg_refl q
      · rw [if_neg h2, if_neg (by omega : ¬ cfg.chunk_size < q.length)]
        apply chunkGenericGo_keep cfg q hne hh hl
        right
        exact SubSeg_refl q
    · simp only [chunkGenericGo]
      by_cases h1 : ((strip p).isEmpty ||
          decide ((strip p).length < cfg.min_chunk_length)) = true
      · rw [if_pos h1]
        exact ih st hmem2
      · rw [if_neg h1]
        by_cases h2 : st.current.length + (strip p).length + 2 ≤ cfg.chunk_size
        · rw [if_pos h2]
          exact ih _ hmem2
        · rw [if_neg h2]
          by_cases h3 : cfg.chunk_size < (strip p).length
          · rw [if_pos h3]
            exact ih _ hmem2
          · rw [if_neg h3]
            exact ih _ hmem2


theorem stitchOne_text_shape (cfg : ChunkerConfig) (prev : Option Chunk) (c : Chunk) :
    (stitchOne cfg prev c).text = c.text ∨
    ∃ f, (stitchOne cfg prev c).text = f ++ ' ' :: c.text := by
  cases prev with
  | none => left; rfl
  | some p =>
    simp only [stitchOne]
    split
    · right
      exact ⟨_, rfl⟩
    · left
      rfl

theorem stitchGo_cover (cfg : ChunkerConfig) :
    ∀ (l : List Chunk) (p : Chunk), ∀ c ∈ l, ∃ c2 ∈ stitchGo cfg p l,
      c2.text = c.text ∨ ∃ f, c2.text = f ++ ' ' :: c.text := by
  intro l
  induction l with
  | nil => intro p c hc; cases hc
  | cons a rest ih =>
    intro p c hc
    rcases List.mem_cons.mp hc with rfl | h2
    · exact ⟨stitchOne cfg (some p) c, by simp [stitchGo], stitchOne_text_shape cfg (some p) c⟩
    · obtain ⟨c2, hc2, hshape⟩ := ih a c h2
      exact ⟨c2, List.mem_cons_of_mem _ hc2, hshape⟩

theorem stitchChunks_cover (cfg : ChunkerConfig) (l : List Chunk) :
    ∀ c ∈ l, ∃ c2 ∈ stitchChunks cfg l,
      c2.text = c.text ∨ ∃ f, c2.text = f ++ ' ' :: c.text := by
  intro c hc
  cases l with
  | nil => cases hc
  | cons a rest =>
    rcases List.mem_cons.mp hc with rfl | h2
    · exact ⟨stitchOne cfg none c, by simp [stitchChunks], stitchOne_text_shape cfg none c⟩
    · obtain ⟨c2, hc2, hshape⟩ := stitchGo_cover cfg rest a c h2
      exact ⟨c2, List.mem_cons_of_mem _ hc2, hshape⟩

theorem filterValidChunks_keep (cfg : ChunkerConfig) (l : List Chunk) (c : Chunk) (hc : c ∈ l)
    (h1 : cfg.min_chunk_length ≤ (strip c.text).length)
    (h2 : 5 ≤ ((strip c.text).filter pyWordChar).length) :
    c ∈ filterValidChunks cfg l := by
  unfold filterValidChunks
  refine List.mem_filter.mpr ⟨hc, ?_⟩
  show (!(decide ((strip c.text).length < cfg.min_chunk_length)) &&
    !(decide (((strip c.text).filter pyWordChar).length < 5))) = true
  simp only [Bool.and_eq_true]
  exact ⟨by simp [Nat.not_lt.mpr h1], by simp [Nat.not_lt.mpr h2]⟩

/-- a chunk whose text contains the qualifying paragraph survives validation -/
theorem subseg_survives (cfg : ChunkerConfig) (q : PyStr) (l : List Chunk) (c : Chunk)
    (hc : c ∈ l) (hsub : SubSeg q (strip c.text))
    (hmin : cfg.min_chunk_length ≤ q.length)
    (hwc : 5 ≤ (q.filter pyWordChar).length) :
    filterValidChunks cfg l ≠ [] := by
  have h1 : cfg.min_chunk_length ≤ (strip c.text).length :=
    le_trans hmin (SubSeg_length hsub)
  have h2 : 5 ≤ ((strip c.text).filter pyWordChar).length :=
    le_trans hwc (SubSeg_filter pyWordChar hsub)
  exact List.ne_nil_of_mem (filterValidChunks_keep cfg l c hc h1 h2)

theorem allWs_subSpaceTabGo {s : PyStr} (h : ∀ ch ∈ s, pyWs ch = true) (b : Bool) :
    ∀ ch ∈ subSpaceTabGo b s, pyWs ch = true := by
  induction s generalizing b with
  | nil => simp [subSpaceTabGo]
  | cons c t ih =>
    have ht : ∀ ch ∈ t, pyWs ch = true := fun ch hch => h ch (List.mem_cons_of_mem _ hch)
    intro ch hch
    simp only [subSpaceTabGo] at hch
    split at hch
    · split at hch
      · exact ih ht _ ch hch
      · rcases List.mem_cons.mp hch with rfl | h2
        · rfl
        · exact ih ht _ ch h2
    · rcases List.mem_cons.mp hch with rfl | h2
      · exact h ch (by simp)
      · exact ih ht _ ch h2

theorem allWs_subNlSpaceGo {s : PyStr} (h : ∀ ch ∈ s, pyWs ch = true) (b : Bool) :
    ∀ ch ∈ subNlSpaceGo b s, pyWs ch = true := by
  induction s generalizing b with
  | nil => simp [subNlSpaceGo]
  | cons c t ih =>
    have ht : ∀ ch ∈ t, pyWs ch = true := fun ch hch => h ch (List.mem_cons_of_mem _ hch)
    intro ch hch
    simp only [subNlSpaceGo] at hch
    split at hch
    · rcases List.mem_cons.mp hch with rfl | h2
      · rfl
      · exact ih ht _ ch h2
    · split at hch
      · exact ih ht _ ch hch
      · rcases List.mem_cons.mp hch with rfl | h2
        · exact h ch (by simp)
        · exact ih ht _ ch h2

theorem allWs_subSpaceNlGo {s : PyStr} (h : ∀ ch ∈ s, pyWs ch = true) :
    ∀ (pending : PyStr), (∀ ch ∈ pending, pyWs ch = true) →
      ∀ ch ∈ subSpaceNlGo pending s, pyWs ch = true := by
  induction s with
  | nil =>
    intro pending hp ch hch
    simp only [subSpaceNlGo] at hch
    exact hp ch (List.mem_reverse.mp hch)
  | cons c t ih =>
    have ht : ∀ ch ∈ t, pyWs ch = true := fun ch hch => h ch (List.mem_cons_of_mem _ hch)
    intro pending hp ch hch
    simp only [subSpaceNlGo] at hch
    split at hch
    · refine ih ht (c :: pending) ?_ ch hch
      intro e he
      rcases List.mem_cons.mp he with rfl | he2
      · exact h e (by simp)
      · exact hp e he2
    · split at hch
      · rcases List.mem_cons.mp hch with rfl | h2
        · rfl
        · exact ih ht [] (by simp) ch h2
      · rcases List.mem_append.mp hch with h2 | h2
        · exact hp ch (List.mem_reverse.mp h2)
        · rcases List.mem_cons.mp h2 with rfl | h3
          · exact h ch (by simp)
          · exact ih ht [] (by simp) ch h3

theorem allWs_subNl3Go {s : PyStr} (h : ∀ ch ∈ s, pyWs ch = true) (k : Nat) :
    ∀ ch ∈ subNl3Go k s, pyWs ch = true := by
  induction s generalizing k with
  | nil => simp [subNl3Go]
  | cons c t ih =>
    have ht : ∀ ch ∈ t, pyWs ch = true := fun ch hch => h ch (List.mem_cons_of_mem _ hch)
    intro ch hch
    simp only [subNl3Go] at hch
    split at hch
    · split at hch
      · rcases List.mem_cons.mp hch with rfl | h2
        · rfl
        · exact ih ht _ ch h2
      · exact ih ht _ ch hch
    · rcases List.mem_cons.mp hch with rfl | h2
      · exact h ch (by simp)
      · exact ih ht _ ch h2

theorem allWs_subWsPunctGo {s : PyStr} (h : ∀ ch ∈ s, pyWs ch = true) :
    ∀ (pending : PyStr), (∀ ch ∈ pending, pyWs ch = true) →
      ∀ ch ∈ subWsPunctGo pending s, pyWs ch = true := by
  induction s with
  | nil =>
    intro pending hp ch hch
    simp only [subWsPunctGo] at hch
    exact hp ch (List.mem_reverse.mp hch)
  | cons c t ih =>
    have ht : ∀ ch ∈ t, pyWs ch = true := fun ch hch => h ch (List.mem_cons_of_mem _ hch)
    intro pending hp ch hch
    simp only [subWsPunctGo] at hch
    split at hch
    · refine ih ht (c :: pending) ?_ ch hch
      intro e he
      rcases List.mem_cons.mp he with rfl | he2
      · exact h e (by simp)
      · exact hp e he2
    · split at hch
      · rcases List.mem_cons.mp hch with rfl | h2
        · exact h ch (by simp)
        · exact ih ht [] (by simp) ch h2
      · rcases List.mem_append.mp hch with h2 | h2
        · exact hp ch (List.mem_reverse.mp h2)
        · rcases List.mem_cons.mp h2 with rfl | h3
          · exact h ch (by simp)
          · exact ih ht [] (by simp) ch h3

theorem allWs_subPunctWsGo {s : PyStr} (h : ∀ ch ∈ s, pyWs ch = true) (m : PwMode) :
    ∀ ch ∈ subPunctWsGo m s, pyWs ch = true := by
  induction s generalizing m with
  | nil => cases m <;> simp [subPunctWsGo]
  | cons c t ih =>
    have ht : ∀ ch ∈ t, pyWs ch = true := fun ch hch => h ch (List.mem_cons_of_mem _ hch)
    intro ch hch
    cases m with
    | norm =>
      simp only [subPunctWsGo] at hch
      split at hch <;>
        (rcases List.mem_cons.mp hch with rfl | h2
         · exact h ch (by simp)
         · exact ih ht _ ch h2)
    | sawP =>
      simp only [subPunctWsGo] at hch
      split at hch
      · rcases List.mem_cons.mp hch with rfl | h2
        · rfl
        · exact ih ht _ ch h2
      · split at hch <;>
          (rcases List.mem_cons.mp hch with rfl | h2
           · exact h ch (by simp)
           · exact ih ht _ ch h2)
    | skipW =>
      simp only [subPunctWsGo] at hch
      split at hch
      · exact ih ht _ ch hch
      · split at hch <;>
          (rcases List.mem_cons.mp hch with rfl | h2
           · exact h ch (by simp)
           · exact ih ht _ ch h2)

theorem allWs_subFormFeed {s : PyStr} (h : ∀ ch ∈ s, pyWs ch = true) :
    ∀ ch ∈ subFormFeed s, pyWs ch = true := by
  induction s with
  | nil => simp [subFormFeed]
  | cons c t ih =>
    have ht : ∀ ch ∈ t, pyWs ch = true := fun ch hch => h ch (List.mem_cons_of_mem _ hch)
    intro ch hch
    simp only [subFormFeed] at hch
    rcases List.mem_append.mp hch with h2 | h2
    · split at h2
      · rcases List.mem_cons.mp h2 with rfl | h3
        · rfl
        · rcases List.mem_singleton.mp h3 with rfl
          rfl
      · rcases List.mem_singleton.mp h2 with rfl
        exact h ch (by simp)
    · exact ih ht ch h2

theorem dropWhile_allWs {s : PyStr} (h : ∀ ch ∈ s, pyWs ch = true) :
    s.dropWhile pyWs = [] := by
  induction s with
  | nil => rfl
  | cons c t ih =>
    rw [List.dropWhile_cons_of_pos (h c (by simp))]
    exact ih (fun ch hch => h ch (List.mem_cons_of_mem _ hch))

theorem preprocessText_allWs {t : PyStr} (h : ∀ ch ∈ t, pyWs ch = true) :
    preprocessText t = [] := by
  show strip (subFormFeed (subPunctWsGo PwMode.norm (subWsPunctGo [] (subNl3Go 0
    (subSpaceNlGo [] (subNlSpaceGo false (subSpaceTabGo false t))))))) = []
  have h1 := allWs_subSpaceTabGo h false
  have h2 := allWs_subNlSpaceGo h1 false
  have h3 := allWs_subSpaceNlGo h2 [] (by simp)
  have h4 := allWs_subNl3Go h3 0
  have h5 := allWs_subWsPunctGo h4 [] (by simp)
  have h6 := allWs_subPunctWsGo h5 PwMode.norm
  have h7 := allWs_subFormFeed h6
  unfold strip lstrip
  rw [dropWhile_allWs h7]
  rfl


/-- Claim C1 (amended): `chunk_document` returns at least one unit whenever some
paragraph of the normalized text is at least `min_chunk_length` long, at most
`chunk_size` long, and has at least 5 word characters; empty or
whitespace-only input always yields an empty unit list. -/
theorem claim_c1_amended :
    (∀ (cfg : ChunkerConfig) (text document_type p : PyStr),
        p ∈ paragraphSplit (preprocessText text) →
        cfg.min_chunk_length ≤ (strip p).length →
        (strip p).length ≤ cfg.chunk_size →
        5 ≤ ((strip p).filter pyWordChar).length →
        chunkText cfg text document_type ≠ []) ∧
    (∀ (cfg : ChunkerConfig) (text document_type : PyStr),
        text.all pyWs = true → chunkText cfg text document_type = []) := by
  constructor
  · intro cfg text document_type p hp hmin hmax hwc
    have hne : strip p ≠ [] := by
      intro h0
      rw [h0] at hwc
      simp at hwc
    have hh : pyWs ((strip p).headD 'x') = false := strip_head hne
    have hl : ∀ d, pyWs ((strip p).getLastD d) = false := strip_last hne
    obtain ⟨c, hc, hsub⟩ := chunkGenericGo_hits cfg (strip p) p rfl hne hh hl hmin hmax
      (paragraphSplit (preprocessText text)) ⟨[], [], 0, 0⟩ hp
    rw [chunkText_eq]
    unfold addOverlapAndValidate
    split
    · exact subseg_survives cfg (strip p) _ c hc (strip_SubSeg hsub hne hh hl) hmin hwc
    · obtain ⟨c2, hc2, hshape⟩ := stitchChunks_cover cfg _ c hc
      have hsub2 : SubSeg (strip p) c2.text := by
        rcases hshape with he | ⟨f, he⟩
        · rw [he]; exact hsub
        · rw [he]; exact SubSeg_append_left f (SubSeg_cons ' ' hsub)
      exact subseg_survives cfg (strip p) _ c2 hc2 (strip_SubSeg hsub2 hne hh hl) hmin hwc
  · intro cfg text document_type hws
    have h : ∀ ch ∈ text, pyWs ch = true := fun ch hch => List.all_eq_true.mp hws ch hch
    rw [chunkText_eq, preprocessText_allWs h]
    rfl

/-- Claim C1 witness: a 24-character single-paragraph text yields at least one
unit under the default configuration, and a whitespace-only text yields none. -/
theorem claim_c1_witness :
    chunkText ⟨1000, 200, 10⟩ (str "hello world this is fine") (str "generic") ≠ [] ∧
    chunkText ⟨1000, 200, 10⟩ (str " \n  ") (str "generic") = [] :=
  ⟨claim_c1_amended.1 ⟨1000, 200, 10⟩ (str "hello world this is fine") (str "generic")
      (str "hello world this is fine") (by decide) (by decide) (by decide) (by decide),
   claim_c1_amended.2 ⟨1000, 200, 10⟩ (str " \n  ") (str "generic") (by decide)⟩


end NoRag
